import Mathlib

/-!
# Image manifest loader (`main.go`): shallow embedding and verification

`loadImageCSV` reads a CSV manifest through Go's `encoding/csv` reader and sorts the
records into images, partial images and warnings.

Conventions of the embedding

* A Go `string` / `[]byte` is a `List Char`.  Every byte that the code inspects
  (`'\n'`, `'\r'`, `','`, `';'`, `'"'`, the decimal digits) is ASCII, and no byte of a
  multi-byte UTF-8 sequence is ASCII, so working on code points gives the same splits.
* The `io.Reader` is a finite in-memory byte string (as `strings.NewReader` in the test):
  the only read error is `io.EOF`.
* `uint64` is a `Nat` below `2 ^ 64`.  The width of `uint` depends on the build target
  (32 or 64 bits): it is the parameter `bits` of every function that converts to `uint`
  or calls one that does, and the conversion `uint(n)` is the explicit `% 2 ^ bits`.
* Loops are structural recursions on a fuel argument; `none` means the fuel ran out.
  The entry points supply the fuel themselves and `loadImageCSV_total` shows it is
  always enough.
* `csv.ParseError` keeps its `Err` only (line and column numbers are not modelled).
-/

namespace ImageCSV

/-! ## Data model (`main.go`, lines 15-32) -/

/-- Go `string`. -/
abbrev GoString := List Char

/-- `type Image struct { Name string; Path string }`. -/
structure Image where
  Name : GoString
  Path : GoString
  deriving DecidableEq, Repr

/-- `type PartialImage struct { Image; ax, ay, bx, by uint }` (`by` is a Lean keyword,
hence `by_`). -/
structure PartialImage extends Image where
  ax : Nat
  ay : Nat
  bx : Nat
  by_ : Nat
  deriving DecidableEq, Repr

/-- The conversion `uint(n)` of a `uint64`, where `uint` is `bits` wide: 32 on a 32-bit
build target, 64 on a 64-bit one. -/
def toUint (bits : Nat) (n : Nat) : Nat := n % 2 ^ bits

/-! ## `strconv.ParseUint(s, 10, 64)` -/

/-- The two sentinel errors a `*strconv.NumError` wraps. -/
inductive NumErrKind where
  | ErrSyntax
  | ErrRange
  deriving DecidableEq, Repr

/-- `strconv.NumError{Func, Num, Err}`. -/
structure NumError where
  Func : GoString
  Num : GoString
  Err : NumErrKind
  deriving DecidableEq, Repr

/-- `maxUint64`. -/
def maxUint64 : Nat := 2 ^ 64 - 1

/-- `cutoff = maxUint64/10 + 1`, the smallest number whose tenfold exceeds `maxUint64`. -/
def cutoff : Nat := maxUint64 / 10 + 1

/-- `lower(c) = c | ('x' - 'X')`. -/
def lower (c : Nat) : Nat := c ||| 32

/-- The digit value `d` that the `switch` in `ParseUint`'s loop assigns to byte `c`
(base 10, so `'_'` is not skipped), `none` for the `default:` branch. -/
def digitVal (c : Char) : Option Nat :=
  if '0'.toNat ≤ c.toNat ∧ c.toNat ≤ '9'.toNat then some (c.toNat - '0'.toNat)
  else if 'a'.toNat ≤ lower c.toNat ∧ lower c.toNat ≤ 'z'.toNat then
    some (lower c.toNat - 'a'.toNat + 10)
  else none

/-- The body of `for _, c := range []byte(s)` in `ParseUint`, with accumulator `n`
(a `uint64`, arithmetic modulo `2 ^ 64`).  `s0` is the whole argument, kept for the
error value. -/
def parseUintLoop (s0 : GoString) : GoString → Nat → Except NumError Nat
  | [], n => .ok n
  | c :: cs, n =>
    match digitVal c with
    | none => .error ⟨"ParseUint".toList, s0, .ErrSyntax⟩
    | some d =>
      if d ≥ 10 then .error ⟨"ParseUint".toList, s0, .ErrSyntax⟩
      else if n ≥ cutoff then .error ⟨"ParseUint".toList, s0, .ErrRange⟩
      else
        let n10 := (n * 10) % 2 ^ 64
        let n1 := (n10 + d) % 2 ^ 64
        if n1 < n10 ∨ n1 > maxUint64 then .error ⟨"ParseUint".toList, s0, .ErrRange⟩
        else parseUintLoop s0 cs n1

/-- `strconv.ParseUint(s, 10, 64)`. -/
def ParseUint (s : GoString) : Except NumError Nat :=
  if s = [] then .error ⟨"ParseUint".toList, s, .ErrSyntax⟩
  else parseUintLoop s s 0

/-- `parseUintN(args ...string) ([]uint, error)` (`main.go`, lines 86-96): the loop over
`args` with the slice `results` built so far. -/
def parseUintNLoop (bits : Nat) : List GoString → List Nat → Except NumError (List Nat)
  | [], results => .ok results
  | arg :: args, results =>
    match ParseUint arg with
    | .error err => .error err
    | .ok n => parseUintNLoop bits args (results ++ [toUint bits n])

/-- `parseUintN` itself. -/
def parseUintN (bits : Nat) (args : List GoString) : Except NumError (List Nat) :=
  parseUintNLoop bits args []

/-! ## Warnings -/

/-- What `fmt`'s `%v` prints for a `[]string`: the elements separated by one space,
in square brackets. -/
def fmtStrings (record : List GoString) : GoString :=
  ['['] ++ List.intercalate [' '] record ++ [']']

/-- The `error` values appended to `warnings`.
* `wrapped err` is `fmt.Errorf("failed to parse image coordinate: %w", err)`, which keeps
  the `*strconv.NumError` it wraps;
* `plain msg` is `fmt.Errorf("invalid number of image CSV field: %v", record)`, which
  keeps the formatted message only. -/
inductive Warning where
  | wrapped (err : NumError)
  | plain (msg : GoString)
  deriving DecidableEq, Repr

/-- The message of the field-count warning for `record`. -/
def fieldCountMessage (record : List GoString) : GoString :=
  "invalid number of image CSV field: ".toList ++ fmtStrings record

/-! ## The CSV reader (`encoding/csv`, configured at `main.go` lines 48-51)

`Comma = ','`, `Comment = ';'`, `FieldsPerRecord = -1`, `LazyQuotes = false`,
`TrimLeadingSpace = false`. -/

/-- `csv.ErrBareQuote` and `csv.ErrQuote`, the `Err` of a `*csv.ParseError`. -/
inductive ParseError where
  | ErrBareQuote
  | ErrQuote
  deriving DecidableEq, Repr

/-- `bufio.Reader.ReadSlice('\n')`: the bytes up to and including the first `'\n'`
(all of the input if there is none) and the input left unread. -/
def readSlice : GoString → GoString × GoString
  | [] => ([], [])
  | c :: cs =>
    if c = '\n' then ([c], cs)
    else ((c :: (readSlice cs).1), (readSlice cs).2)

/-- `lengthNL(b)`: the number of bytes of the trailing `'\n'`. -/
def lengthNL (b : GoString) : Nat :=
  if b.getLast? = some '\n' then 1 else 0

/-- `Reader.readLine`: the next line, whether the error is `io.EOF`, and the input left.
`ReadSlice` reports `io.EOF` exactly when the slice does not end in `'\n'`; a non-empty
last line clears it and loses a trailing `'\r'`; a line ending `"\r\n"` is normalised
to end in `"\n"`. -/
def readLine (input : GoString) : GoString × Bool × GoString :=
  let line := (readSlice input).1
  let rest := (readSlice input).2
  let sliceEOF := decide (line.getLast? ≠ some '\n')
  let err := sliceEOF && decide (line.length = 0)
  let line := if line.length > 0 ∧ sliceEOF = true ∧ line.getLast? = some '\r'
    then line.dropLast else line
  let line := if line.dropLast.getLast? = some '\r' ∧ line.getLast? = some '\n'
    then line.dropLast.dropLast ++ ['\n'] else line
  (line, err, rest)

/-- `bytes.IndexByte(b, c)` (and `bytes.IndexRune` for an ASCII rune); `none` for `-1`. -/
def indexByte : GoString → Char → Option Nat
  | [], _ => none
  | x :: xs, c => if x = c then some 0 else (indexByte xs c).map (· + 1)

/-- The loop at the head of `readRecord` that skips comment lines and empty lines.
Returns the line to parse, `errRead` (is it `io.EOF`) and the input left. -/
def skipLines : Nat → GoString → Option (GoString × Bool × GoString)
  | 0, _ => none
  | fuel + 1, input =>
    let line := (readLine input).1
    let errRead := (readLine input).2.1
    let rest := (readLine input).2.2
    if line.head? = some ';' then
      -- `line = nil; continue`, then the loop condition `errRead == nil`
      if errRead then some ([], errRead, rest) else skipLines fuel rest
    else if errRead = false ∧ line.length = lengthNL line then
      skipLines fuel rest
    else some (line, errRead, rest)

/-- What one call of `csvReader.Read()` gives: a record and the reader's new state, the
error `io.EOF`, or a `*csv.ParseError`. -/
inductive ReadResult where
  | record (fields : List GoString) (rest : GoString)
  | eof
  | error (e : ParseError)
  deriving DecidableEq, Repr

/-- The `parseField:` loop of `readRecord`.  `line` is the unparsed part of the current
line, `rest` the reader's unread input, `fields` the fields completed so far
(`recordBuffer` cut at `fieldIndexes`), and `quoted` is `some buf` while inside a quoted
field whose bytes so far are `buf` (the inner `for` loop), `none` at the start of a
field.  `errRead` is `nil` throughout: it is `nil` on entry and the only read error,
`io.EOF`, is reset to `nil` after each `readLine` within a quoted field. -/
def parseFields : Nat → GoString → GoString → List GoString → Option GoString →
    Option ReadResult
  | 0, _, _, _, _ => none
  | fuel + 1, line, rest, fields, none =>
    if line.head? ≠ some '"' then
      -- Non-quoted string field
      match indexByte line ',' with
      | some i =>
        if indexByte (line.take i) '"' ≠ none then some (.error .ErrBareQuote)
        else parseFields fuel (line.drop (i + 1)) rest (fields ++ [line.take i]) none
      | none =>
        if indexByte (line.take (line.length - lengthNL line)) '"' ≠ none then
          some (.error .ErrBareQuote)
        else some (.record (fields ++ [line.take (line.length - lengthNL line)]) rest)
    else
      -- Quoted string field
      parseFields fuel (line.drop 1) rest fields (some [])
  | fuel + 1, line, rest, fields, some buf =>
    match indexByte line '"' with
    | some i =>
      -- Hit next quote.
      if (line.drop (i + 1)).head? = some '"' then
        parseFields fuel (line.drop (i + 2)) rest fields (some (buf ++ line.take i ++ ['"']))
      else if (line.drop (i + 1)).head? = some ',' then
        parseFields fuel (line.drop (i + 2)) rest (fields ++ [buf ++ line.take i]) none
      else if lengthNL (line.drop (i + 1)) = (line.drop (i + 1)).length then
        some (.record (fields ++ [buf ++ line.take i]) rest)
      else some (.error .ErrQuote)
    | none =>
      if line.length > 0 then
        -- Hit end of line (copy all data so far).
        parseFields fuel (readLine rest).1 (readLine rest).2.2 fields (some (buf ++ line))
      else
        -- Abrupt end of file.
        some (.error .ErrQuote)

/-- `Reader.Read` (that is `readRecord`) on the unread input. -/
def Read (input : GoString) : Option ReadResult :=
  match skipLines (input.length + 1) input with
  | none => none
  | some (line, errRead, rest) =>
    if errRead then some .eof
    else parseFields (line.length + rest.length + 1) line rest [] none

/-! ## `loadImageCSV` (`main.go`, lines 47-84) -/

/-- The three accumulators `images`, `partialImages`, `warnings`. -/
structure Acc where
  images : List Image
  partialImages : List PartialImage
  warnings : List Warning
  deriving DecidableEq, Repr

/-- The four return values of `loadImageCSV`. -/
structure Result where
  images : List Image
  partialImages : List PartialImage
  warnings : List Warning
  err : Option ParseError
  deriving DecidableEq, Repr

/-- The `switch len(record)` of the loop body. -/
def processRecord (bits : Nat) (acc : Acc) (record : List GoString) : Acc :=
  if record.length = 2 then
    { acc with images := acc.images ++ [⟨record.getD 0 [], record.getD 1 []⟩] }
  else if record.length = 6 then
    match parseUintN bits [record.getD 2 [], record.getD 3 [], record.getD 4 [],
        record.getD 5 []] with
    | .error err => { acc with warnings := acc.warnings ++ [Warning.wrapped err] }
    | .ok coords =>
      { acc with partialImages := acc.partialImages ++
          [{ Name := record.getD 0 [], Path := record.getD 1 [],
             ax := coords.getD 0 0, ay := coords.getD 1 0,
             bx := coords.getD 2 0, by_ := coords.getD 3 0 }] }
  else
    { acc with warnings := acc.warnings ++ [Warning.plain (fieldCountMessage record)] }

/-- The `for` loop of `loadImageCSV`. -/
def loadLoop (bits : Nat) : Nat → GoString → Acc → Option Result
  | 0, _, _ => none
  | fuel + 1, input, acc =>
    match Read input with
    | none => none
    | some .eof => some ⟨acc.images, acc.partialImages, acc.warnings, none⟩
    | some (.error e) => some ⟨[], [], [], some e⟩
    | some (.record record rest) => loadLoop bits fuel rest (processRecord bits acc record)

/-- `loadImageCSV(r)` for a reader over the bytes `r`, built with a `uint` of `bits`
bits. -/
def loadImageCSV (bits : Nat) (r : GoString) : Option Result :=
  loadLoop bits (r.length + 1) r ⟨[], [], []⟩

/-! ## The test helpers (`main_test.go`, lines 9-15) -/

/-- The decimal digits of `u` as `fmt`'s `%d` writes them (`fmtInteger`: the last digit
is produced first, while `u >= 10`). -/
def fmtUintLoop : Nat → Nat → GoString → GoString
  | 0, _, buf => buf
  | fuel + 1, u, buf =>
    if u ≥ 10 then fmtUintLoop fuel (u / 10) (Char.ofNat ('0'.toNat + u % 10) :: buf)
    else Char.ofNat ('0'.toNat + u) :: buf

/-- `%d` of a `uint` (at most 20 digits). -/
def fmtUint (u : Nat) : GoString := fmtUintLoop 20 u []

/-- `imageToCSVRecord`: `fmt.Sprintf("%s,%s\n", i.Name, i.Path)`. -/
def imageToCSVRecord (i : Image) : GoString :=
  i.Name ++ [','] ++ i.Path ++ ['\n']

/-- `partialImageToCSVRecord`:
`fmt.Sprintf("%s,%s,%d,%d,%d,%d\n", i.Name, i.Path, i.ax, i.ay, i.bx, i.by)`. -/
def partialImageToCSVRecord (i : PartialImage) : GoString :=
  i.Name ++ [','] ++ i.Path ++ [','] ++ fmtUint i.ax ++ [','] ++ fmtUint i.ay ++ [','] ++
    fmtUint i.bx ++ [','] ++ fmtUint i.by_ ++ ['\n']

/-! ## Specification-side vocabulary -/

/-- An ASCII decimal digit. -/
def isDigit (c : Char) : Prop := '0'.toNat ≤ c.toNat ∧ c.toNat ≤ '9'.toNat

instance (c : Char) : Decidable (isDigit c) := by unfold isDigit; infer_instance

/-- The number a string of decimal digits denotes, continuing from `n`. -/
def decimalFrom (n : Nat) (s : GoString) : Nat :=
  s.foldl (fun n c => n * 10 + (c.toNat - '0'.toNat)) n

/-- The number a string of decimal digits denotes. -/
def decimalValue (s : GoString) : Nat := decimalFrom 0 s

/-- A valid coordinate field: a non-empty string of decimal digits whose value is in
the 64-bit unsigned range. -/
def validCoordinate (s : GoString) : Prop :=
  s ≠ [] ∧ (∀ c ∈ s, isDigit c) ∧ decimalValue s < 2 ^ 64

instance (s : GoString) : Decidable (validCoordinate s) := by
  unfold validCoordinate; infer_instance

/-- The records that successive calls of `Read` deliver until `io.EOF`, or the error
that ends the stream. -/
def readAll : Nat → GoString → Option (Except ParseError (List (List GoString)))
  | 0, _ => none
  | fuel + 1, input =>
    match Read input with
    | none => none
    | some .eof => some (.ok [])
    | some (.error e) => some (.error e)
    | some (.record record rest) =>
      match readAll fuel rest with
      | none => none
      | some (.error e) => some (.error e)
      | some (.ok records) => some (.ok (record :: records))

/-- The record stream of the input `r`. -/
def records (r : GoString) : Option (Except ParseError (List (List GoString))) :=
  readAll (r.length + 1) r

/-- A full-image record: exactly two fields. -/
def isFull (record : List GoString) : Prop := record.length = 2

instance (record : List GoString) : Decidable (isFull record) := by
  unfold isFull; infer_instance

/-- A partial-image record: exactly six fields, the last four valid coordinates. -/
def isPartial (record : List GoString) : Prop :=
  record.length = 6 ∧ validCoordinate (record.getD 2 []) ∧ validCoordinate (record.getD 3 []) ∧
    validCoordinate (record.getD 4 []) ∧ validCoordinate (record.getD 5 [])

instance (record : List GoString) : Decidable (isPartial record) := by
  unfold isPartial; infer_instance

/-- The image a full-image record denotes. -/
def imageOf (record : List GoString) : Image :=
  ⟨record.getD 0 [], record.getD 1 []⟩

/-- The partial image a partial-image record denotes where `uint` is `bits` wide: its
coordinates are the values of the four fields converted to `uint`. -/
def partialOf (bits : Nat) (record : List GoString) : PartialImage :=
  { Name := record.getD 0 [], Path := record.getD 1 [],
    ax := toUint bits (decimalValue (record.getD 2 [])),
    ay := toUint bits (decimalValue (record.getD 3 [])),
    bx := toUint bits (decimalValue (record.getD 4 [])),
    by_ := toUint bits (decimalValue (record.getD 5 [])) }

/-- The warning `loadImageCSV` files for a record, `none` when it files none: the wrapped
error of `parseUintN` for six fields, the field-count message for a count other than
2 and 6. -/
def warningOf (bits : Nat) (record : List GoString) : Option Warning :=
  if record.length = 2 then none
  else if record.length = 6 then
    match parseUintN bits [record.getD 2 [], record.getD 3 [], record.getD 4 [],
        record.getD 5 []] with
    | .error err => some (Warning.wrapped err)
    | .ok _ => none
  else some (Warning.plain (fieldCountMessage record))

/-- The result `loadImageCSV` is specified to return for a record stream. -/
def resultOf (bits : Nat) (acc : Acc) :
    Except ParseError (List (List GoString)) → Result
  | .error e => ⟨[], [], [], some e⟩
  | .ok rs =>
    ⟨acc.images ++ (rs.filter (fun r => decide (isFull r))).map imageOf,
      acc.partialImages ++
        (rs.filter (fun r => decide (isPartial r))).map (partialOf bits),
      acc.warnings ++ rs.filterMap (warningOf bits), none⟩

/-- The record stream `x` with the records `rs` delivered before it. -/
def prependRecords (rs : List (List GoString)) :
    Except ParseError (List (List GoString)) → Except ParseError (List (List GoString))
  | .error e => .error e
  | .ok rs' => .ok (rs ++ rs')

/-- The text is empty or ends with a newline: every line of it is complete. -/
def endsLines (s : GoString) : Prop := s = [] ∨ s.getLast? = some '\n'

instance (s : GoString) : Decidable (endsLines s) := by unfold endsLines; infer_instance

/-- `loadImageCSV` returns for `s` and returns no fatal error. -/
def parsesCleanly (bits : Nat) (s : GoString) : Prop :=
  match loadImageCSV bits s with
  | some res => res.err = none
  | none => False

instance (bits : Nat) (s : GoString) : Decidable (parsesCleanly bits s) := by
  unfold parsesCleanly; split <;> infer_instance

/-- The text of an unquoted field: no comma, no double quote, no newline. -/
def plainField (f : GoString) : Prop := ',' ∉ f ∧ '"' ∉ f ∧ '\n' ∉ f

instance (f : GoString) : Decidable (plainField f) := by unfold plainField; infer_instance

/-- The start of a line on which the fields `fs` have been written, each followed by its
comma: the reader is at the start of the next field of the same record. -/
def openFields : List GoString → GoString
  | [] => []
  | f :: fs => f ++ ',' :: openFields fs

/-- Every double quote of the text is one of a doubled pair `""`: read inside a quoted
field, no quote of the text closes the field. -/
def quotesDoubled : GoString → Bool
  | [] => true
  | c :: cs =>
    if c = '"' then
      match cs with
      | [] => false
      | d :: ds => decide (d = '"') && quotesDoubled ds
    else quotesDoubled cs

/-- The text `t` with every double quote doubled. -/
def escapeQuotes : GoString → GoString
  | [] => []
  | c :: cs => if c = '"' then '"' :: '"' :: escapeQuotes cs else c :: escapeQuotes cs

/-- The quoted form of a field: the text enclosed in double quotes, every inner double
quote doubled. -/
def quoteField (t : GoString) : GoString := '"' :: escapeQuotes t ++ ['"']

/-- The line made of the quoted forms of `name` and `path`, joined by a comma and ended
by a newline. -/
def quotedImageLine (name path : GoString) : GoString :=
  quoteField name ++ [','] ++ quoteField path ++ ['\n']

/-- The state of the `parseField:` loop of `readRecord`: the arguments of `parseFields`. -/
structure FieldState where
  line : GoString
  rest : GoString
  fields : List GoString
  quoted : Option GoString
  deriving DecidableEq, Repr

/-- One pass of the `parseField:` loop (of its inner loop, inside a quoted field): the
next state, or the result the loop leaves with.  `parseFields_succ` relates it to
`parseFields`. -/
def fieldStep (s : FieldState) : FieldState ⊕ ReadResult :=
  match s.quoted with
  | none =>
    if s.line.head? ≠ some '"' then
      match indexByte s.line ',' with
      | some i =>
        if indexByte (s.line.take i) '"' ≠ none then .inr (.error .ErrBareQuote)
        else .inl ⟨s.line.drop (i + 1), s.rest, s.fields ++ [s.line.take i], none⟩
      | none =>
        if indexByte (s.line.take (s.line.length - lengthNL s.line)) '"' ≠ none then
          .inr (.error .ErrBareQuote)
        else
          .inr (.record (s.fields ++ [s.line.take (s.line.length - lengthNL s.line)])
            s.rest)
    else .inl ⟨s.line.drop 1, s.rest, s.fields, some []⟩
  | some buf =>
    match indexByte s.line '"' with
    | some i =>
      if (s.line.drop (i + 1)).head? = some '"' then
        .inl ⟨s.line.drop (i + 2), s.rest, s.fields, some (buf ++ s.line.take i ++ ['"'])⟩
      else if (s.line.drop (i + 1)).head? = some ',' then
        .inl ⟨s.line.drop (i + 2), s.rest, s.fields ++ [buf ++ s.line.take i], none⟩
      else if lengthNL (s.line.drop (i + 1)) = (s.line.drop (i + 1)).length then
        .inr (.record (s.fields ++ [buf ++ s.line.take i]) s.rest)
      else .inr (.error .ErrQuote)
    | none =>
      if s.line.length > 0 then
        .inl ⟨(readLine s.rest).1, (readLine s.rest).2.2, s.fields, some (buf ++ s.line)⟩
      else .inr (.error .ErrQuote)

/-- The state of the loop after `n` passes, `none` when it has left before. -/
def fieldRun : Nat → FieldState → Option FieldState
  | 0, s => some s
  | n + 1, s =>
    match fieldStep s with
    | .inl s' => fieldRun n s'
    | .inr _ => none

/-- The state in which `Read`, called on `input`, enters the `parseField:` loop: the first
line that is neither a comment nor empty, and the input after it; `none` at `io.EOF`. -/
def fieldStart (input : GoString) : Option FieldState :=
  match skipLines (input.length + 1) input with
  | some (line, false, rest) => some ⟨line, rest, [], none⟩
  | _ => none

/-- On `input`, after `n` passes of the `parseField:` loop of its first record, the
reader is inside a quoted field that nothing closes: every quote of the rest of the
current line and of the unread input is doubled. -/
def unclosedQuoteAfter (n : Nat) (input : GoString) : Prop :=
  match (fieldStart input).bind (fieldRun n) with
  | some s => s.quoted.isSome = true ∧ quotesDoubled s.line = true ∧
      quotesDoubled s.rest = true
  | none => False

instance (n : Nat) (input : GoString) : Decidable (unclosedQuoteAfter n input) := by
  unfold unclosedQuoteAfter; split <;> infer_instance

/-! ## Lemmas -/

theorem loadLoop_record {bits : Nat} (fuel : Nat) (input rest : GoString) (record : List GoString)
    (acc : Acc) (h : Read input = some (.record record rest)) :
    loadLoop bits (fuel + 1) input acc = loadLoop bits fuel rest (processRecord bits acc record) := by
  simp [loadLoop, h]

theorem digitVal_of_isDigit {c : Char} (h : isDigit c) :
    digitVal c = some (c.toNat - '0'.toNat) := by
  unfold isDigit at h
  unfold digitVal
  rw [if_pos h]

theorem digitVal_not_isDigit {c : Char} (h : ¬ isDigit c) :
    digitVal c = none ∨ ∃ d, digitVal c = some d ∧ 10 ≤ d := by
  unfold isDigit at h
  unfold digitVal
  rw [if_neg h]
  split
  · right; exact ⟨_, rfl, by omega⟩
  · left; rfl

theorem le_decimalFrom (s : GoString) (n : Nat) : n ≤ decimalFrom n s := by
  induction s generalizing n with
  | nil => simp [decimalFrom]
  | cons c cs ih =>
    have := ih (n * 10 + (c.toNat - '0'.toNat))
    simp only [decimalFrom, List.foldl_cons] at this ⊢
    omega

theorem parseUintLoop_ok (s0 : GoString) (s : GoString) (n : Nat)
    (hd : ∀ c ∈ s, isDigit c) (hv : decimalFrom n s < 2 ^ 64) :
    parseUintLoop s0 s n = .ok (decimalFrom n s) := by
  induction s generalizing n with
  | nil => simp [parseUintLoop, decimalFrom]
  | cons c cs ih =>
    have hc : isDigit c := hd c (List.mem_cons_self _ _)
    have hstep : decimalFrom n (c :: cs) = decimalFrom (n * 10 + (c.toNat - '0'.toNat)) cs := rfl
    rw [hstep] at hv ⊢
    have hle := le_decimalFrom cs (n * 10 + (c.toNat - '0'.toNat))
    have h9 : c.toNat - '0'.toNat ≤ 9 := by
      have h0 : '0'.toNat = 48 := rfl
      have h9 : '9'.toNat = 57 := rfl
      unfold isDigit at hc; omega
    rw [parseUintLoop, digitVal_of_isDigit hc]
    have hlt : n * 10 + (c.toNat - '0'.toNat) < 2 ^ 64 := lt_of_le_of_lt hle hv
    have hcut : ¬ (n ≥ cutoff) := by
      have : cutoff = 1844674407370955162 := by decide
      rw [this]; norm_num at hlt ⊢; omega
    have hm1 : n * 10 % 2 ^ 64 = n * 10 := Nat.mod_eq_of_lt (by omega)
    have hm2 : (n * 10 + (c.toNat - '0'.toNat)) % 2 ^ 64 = n * 10 + (c.toNat - '0'.toNat) :=
      Nat.mod_eq_of_lt hlt
    have hmax : maxUint64 = 2 ^ 64 - 1 := rfl
    simp only [hm1, hm2]
    rw [if_neg (by omega), if_neg hcut, if_neg (by rw [hmax]; omega)]
    exact ih _ (fun c hc => hd c (List.mem_cons_of_mem _ hc)) hv

theorem parseUintLoop_ok_inv (s0 : GoString) (s : GoString) (n v : Nat) (hn : n < 2 ^ 64)
    (h : parseUintLoop s0 s n = .ok v) :
    (∀ c ∈ s, isDigit c) ∧ decimalFrom n s = v ∧ v < 2 ^ 64 := by
  induction s generalizing n with
  | nil =>
    simp only [parseUintLoop, Except.ok.injEq] at h
    subst h
    exact ⟨by simp, rfl, hn⟩
  | cons c cs ih =>
    by_cases hc : isDigit c
    · rw [parseUintLoop, digitVal_of_isDigit hc] at h
      simp only at h
      split at h
      · cases h
      · split at h
        · cases h
        · split at h
          · cases h
          · rename_i h1 h2 h3
            have hstep : decimalFrom n (c :: cs) =
                decimalFrom (n * 10 + (c.toNat - '0'.toNat)) cs := rfl
            have hcut : cutoff = 1844674407370955162 := by decide
            have h9 : c.toNat - '0'.toNat ≤ 9 := by omega
            have hlt : n * 10 + (c.toNat - '0'.toNat) < 2 ^ 64 := by
              rw [hcut] at h2; norm_num; omega
            have hm1 : n * 10 % 2 ^ 64 = n * 10 := Nat.mod_eq_of_lt (by omega)
            have hm2 : (n * 10 + (c.toNat - '0'.toNat)) % 2 ^ 64 =
                n * 10 + (c.toNat - '0'.toNat) := Nat.mod_eq_of_lt hlt
            rw [hm1, hm2] at h
            obtain ⟨hd, hv, hb⟩ := ih _ hlt h
            refine ⟨?_, by rw [hstep]; exact hv, hb⟩
            intro x hx
            rcases List.mem_cons.mp hx with rfl | hx
            · exact hc
            · exact hd x hx
    · exfalso
      rw [parseUintLoop] at h
      rcases digitVal_not_isDigit hc with h0 | ⟨d, h0, hd⟩
      · rw [h0] at h; cases h
      · rw [h0] at h
        simp only at h
        rw [if_pos hd] at h
        cases h

theorem ParseUint_ok_iff (s : GoString) (v : Nat) :
    ParseUint s = .ok v ↔ validCoordinate s ∧ v = decimalValue s := by
  constructor
  · intro h
    unfold ParseUint at h
    split at h
    · cases h
    · rename_i hne
      obtain ⟨hd, hv, hb⟩ := parseUintLoop_ok_inv s s 0 v (by norm_num) h
      exact ⟨⟨hne, hd, by unfold decimalValue; rw [hv]; exact hb⟩, hv.symm⟩
  · rintro ⟨⟨hne, hd, hb⟩, rfl⟩
    unfold ParseUint
    rw [if_neg hne]
    exact parseUintLoop_ok s s 0 hd hb

theorem ParseUint_of_valid {s : GoString} (h : validCoordinate s) :
    ParseUint s = .ok (decimalValue s) :=
  (ParseUint_ok_iff s _).mpr ⟨h, rfl⟩

theorem ParseUint_of_invalid {s : GoString} (h : ¬ validCoordinate s) :
    ∃ e, ParseUint s = .error e := by
  cases hp : ParseUint s with
  | error e => exact ⟨e, rfl⟩
  | ok v => exact absurd ((ParseUint_ok_iff s v).mp hp).1 h

theorem toUint_of_lt {bits n : Nat} (h : n < 2 ^ bits) : toUint bits n = n := by
  unfold toUint
  exact Nat.mod_eq_of_lt h

theorem toUint_decimalValue {s : GoString} (h : validCoordinate s) :
    toUint 64 (decimalValue s) = decimalValue s :=
  toUint_of_lt h.2.2

theorem toUint_lt {bits : Nat} (n : Nat) : toUint bits n < 2 ^ bits := by
  unfold toUint
  exact Nat.mod_lt _ (by positivity)

theorem parseUintNLoop_valid {bits : Nat} (args : List GoString) (results : List Nat)
    (h : ∀ a ∈ args, validCoordinate a) :
    parseUintNLoop bits args results =
      .ok (results ++ args.map (fun a => toUint bits (decimalValue a))) := by
  induction args generalizing results with
  | nil => simp [parseUintNLoop]
  | cons a as ih =>
    have ha := h a (List.mem_cons_self _ _)
    rw [parseUintNLoop, ParseUint_of_valid ha]
    simp only
    rw [ih _ (fun x hx => h x (List.mem_cons_of_mem _ hx))]
    simp

theorem parseUintNLoop_invalid {bits : Nat} (args : List GoString) (results : List Nat)
    (h : ∃ a ∈ args, ¬ validCoordinate a) :
    ∃ e, parseUintNLoop bits args results = .error e := by
  induction args generalizing results with
  | nil => simp at h
  | cons a as ih =>
    rw [parseUintNLoop]
    cases hp : ParseUint a with
    | error e => exact ⟨e, rfl⟩
    | ok v =>
      simp only
      apply ih
      obtain ⟨x, hx, hnx⟩ := h
      rcases List.mem_cons.mp hx with rfl | hx
      · exact absurd ((ParseUint_ok_iff _ v).mp hp).1 hnx
      · exact ⟨x, hx, hnx⟩

theorem infix_intercalate (sep : GoString) (record : List GoString) (f : GoString)
    (h : f ∈ record) : f <:+: List.intercalate sep record := by
  induction record with
  | nil => simp at h
  | cons x xs ih =>
    cases xs with
    | nil =>
      simp only [List.mem_singleton] at h
      subst h
      simp [List.intercalate, List.intersperse]
    | cons y ys =>
      have e : List.intercalate sep (x :: y :: ys) = x ++ (sep ++ List.intercalate sep (y :: ys)) := by
        simp [List.intercalate, List.intersperse]
      rw [e]
      rcases List.mem_cons.mp h with rfl | h
      · exact (List.prefix_append _ _).isInfix
      · exact (ih h).trans ((List.suffix_append _ _).isInfix.trans (List.suffix_append _ _).isInfix)

theorem infix_fieldCountMessage (record : List GoString) (f : GoString) (h : f ∈ record) :
    f <:+: fieldCountMessage record := by
  unfold fieldCountMessage fmtStrings
  have h1 := infix_intercalate [' '] record f h
  obtain ⟨s, t, e⟩ := h1
  exact ⟨"invalid number of image CSV field: ".toList ++ ['['] ++ s, t ++ [']'], by
    rw [← e]; simp [List.append_assoc]⟩

theorem processRecord_partialImage {bits : Nat} (acc : Acc)
    (name path a b c d : GoString)
    (ha : validCoordinate a) (hb : validCoordinate b) (hc : validCoordinate c)
    (hd : validCoordinate d) :
    processRecord bits acc [name, path, a, b, c, d] =
      ⟨acc.images,
        acc.partialImages ++
          [{ Name := name, Path := path, ax := toUint bits (decimalValue a),
             ay := toUint bits (decimalValue b), bx := toUint bits (decimalValue c),
             by_ := toUint bits (decimalValue d) }],
        acc.warnings⟩ := by
  have hN : parseUintN bits [a, b, c, d] =
      .ok [toUint bits (decimalValue a), toUint bits (decimalValue b),
        toUint bits (decimalValue c), toUint bits (decimalValue d)] := by
    unfold parseUintN
    rw [parseUintNLoop_valid]
    · simp
    · intro x hx
      simp only [List.mem_cons, List.mem_singleton, List.not_mem_nil, or_false] at hx
      rcases hx with rfl | rfl | rfl | rfl <;> assumption
  simp [processRecord, hN]

theorem processRecord_badCoordinate {bits : Nat} (acc : Acc) (name path a b c d : GoString)
    (hinv : ¬ (validCoordinate a ∧ validCoordinate b ∧ validCoordinate c ∧
      validCoordinate d)) :
    ∃ e, parseUintN bits [a, b, c, d] = .error e ∧
      processRecord bits acc [name, path, a, b, c, d] =
        ⟨acc.images, acc.partialImages, acc.warnings ++ [Warning.wrapped e]⟩ := by
  have hN : ∃ e, parseUintN bits [a, b, c, d] = .error e := by
    unfold parseUintN
    apply parseUintNLoop_invalid
    by_contra hcon
    push_neg at hcon
    exact hinv ⟨hcon a (by simp), hcon b (by simp), hcon c (by simp), hcon d (by simp)⟩
  obtain ⟨e, he⟩ := hN
  exact ⟨e, he, by simp [processRecord, he]⟩

theorem processRecord_fieldCount {bits : Nat} (acc : Acc) (record : List GoString)
    (h2 : record.length ≠ 2) (h6 : record.length ≠ 6) :
    processRecord bits acc record =
      ⟨acc.images, acc.partialImages,
        acc.warnings ++ [Warning.plain (fieldCountMessage record)]⟩ := by
  simp [processRecord, h2, h6]

theorem list_length_two {α : Type} (l : List α) (h : l.length = 2) : ∃ a b, l = [a, b] := by
  match l, h with
  | [a, b], _ => exact ⟨a, b, rfl⟩

theorem list_length_six {α : Type} (l : List α) (h : l.length = 6) :
    ∃ a b c d e f, l = [a, b, c, d, e, f] := by
  match l, h with
  | [a, b, c, d, e, f], _ => exact ⟨a, b, c, d, e, f, rfl⟩

theorem warningOf_isSome_iff {bits : Nat} (record : List GoString) :
    (warningOf bits record).isSome ↔ ¬ isFull record ∧ ¬ isPartial record := by
  unfold warningOf isFull
  by_cases h2 : record.length = 2
  · simp [h2]
  · by_cases h6 : record.length = 6
    · obtain ⟨n, p, a, b, c, d, rfl⟩ := list_length_six record h6
      by_cases hv : validCoordinate a ∧ validCoordinate b ∧ validCoordinate c ∧
          validCoordinate d
      · have hN : parseUintN bits [a, b, c, d] =
            .ok [toUint bits (decimalValue a), toUint bits (decimalValue b),
              toUint bits (decimalValue c), toUint bits (decimalValue d)] := by
          unfold parseUintN
          rw [parseUintNLoop_valid]
          · simp
          · intro x hx
            simp only [List.mem_cons, List.mem_singleton, List.not_mem_nil, or_false] at hx
            rcases hx with rfl | rfl | rfl | rfl
            exacts [hv.1, hv.2.1, hv.2.2.1, hv.2.2.2]
        simp [hN, isPartial, hv]
      · obtain ⟨e, he, -⟩ :=
          @processRecord_badCoordinate bits ⟨[], [], []⟩ n p a b c d hv
        simp [he, isPartial, hv]
    · simp [h2, h6, isPartial]

theorem processRecord_spec {bits : Nat} (acc : Acc) (record : List GoString) :
    processRecord bits acc record =
      ⟨acc.images ++ (if isFull record then [imageOf record] else []),
        acc.partialImages ++ (if isPartial record then [partialOf bits record] else []),
        acc.warnings ++ (warningOf bits record).toList⟩ := by
  by_cases h2 : record.length = 2
  · have hnp : ¬ isPartial record := by unfold isPartial; omega
    simp [processRecord, h2, isFull, hnp, warningOf, imageOf]
  · by_cases h6 : record.length = 6
    · obtain ⟨n, p, a, b, c, d, rfl⟩ := list_length_six record h6
      by_cases hv : validCoordinate a ∧ validCoordinate b ∧ validCoordinate c ∧
          validCoordinate d
      · have hp := @processRecord_partialImage bits acc n p a b c d hv.1 hv.2.1 hv.2.2.1
          hv.2.2.2
        have hw : warningOf bits [n, p, a, b, c, d] = none := by
          have := @warningOf_isSome_iff bits [n, p, a, b, c, d]
          have hP : isPartial [n, p, a, b, c, d] := ⟨rfl, hv⟩
          cases hwo : warningOf bits [n, p, a, b, c, d] with
          | none => rfl
          | some w => rw [hwo] at this; simp [hP] at this
        have hP : isPartial [n, p, a, b, c, d] := ⟨rfl, hv⟩
        rw [hp, hw, if_pos hP, if_neg (by unfold isFull; simp)]
        simp [partialOf]
      · obtain ⟨e, he, hp⟩ := @processRecord_badCoordinate bits acc n p a b c d hv
        have hP : ¬ isPartial [n, p, a, b, c, d] := fun h => hv h.2
        have hw : warningOf bits [n, p, a, b, c, d] = some (Warning.wrapped e) := by
          simp [warningOf, he]
        rw [hp, hw, if_neg hP, if_neg (by unfold isFull; simp)]
        simp
    · have hnp : ¬ isPartial record := fun h => h6 h.1
      simp [processRecord, h2, h6, isFull, hnp, warningOf]

theorem loadLoop_eq_readAll {bits : Nat} (fuel : Nat) (input : GoString) (acc : Acc) :
    loadLoop bits fuel input acc = (readAll fuel input).map (resultOf bits acc) := by
  induction fuel generalizing input acc with
  | zero => simp [loadLoop, readAll]
  | succ fuel ih =>
    rw [loadLoop, readAll]
    cases hR : Read input with
    | none => simp
    | some rr =>
      cases rr with
      | eof => simp [resultOf]
      | error e => simp [resultOf]
      | record record rest =>
        simp only
        rw [ih]
        cases hA : readAll fuel rest with
        | none => simp
        | some x =>
          cases x with
          | error e => simp [resultOf]
          | ok rs =>
            simp only [Option.map_some', resultOf, processRecord_spec]
            by_cases hF : isFull record <;> by_cases hP : isPartial record <;>
              cases hw : warningOf bits record <;>
              simp [hF, hP, hw, List.filter_cons, List.filterMap_cons]

/-! ### `readSlice` and `readLine` -/

theorem readSlice_append (s : GoString) : (readSlice s).1 ++ (readSlice s).2 = s := by
  induction s with
  | nil => rfl
  | cons c cs ih =>
    unfold readSlice
    split
    · simp_all
    · simp [ih]

theorem readSlice_length (s : GoString) :
    (readSlice s).1.length + (readSlice s).2.length = s.length := by
  have := congrArg List.length (readSlice_append s)
  simpa using this

theorem readSlice_fst_ne_nil {s : GoString} (h : s ≠ []) : (readSlice s).1 ≠ [] := by
  cases s with
  | nil => exact absurd rfl h
  | cons c cs =>
    unfold readSlice
    split <;> simp

theorem readSlice_nil : readSlice [] = ([], []) := rfl

theorem readSlice_of_nl (l rest : GoString) (h : '\n' ∉ l) :
    readSlice (l ++ '\n' :: rest) = (l ++ ['\n'], rest) := by
  induction l with
  | nil => simp [readSlice]
  | cons c cs ih =>
    have hc : c ≠ '\n' := fun e => h (e ▸ List.mem_cons_self _ _)
    have hcs : '\n' ∉ cs := fun e => h (List.mem_cons_of_mem _ e)
    show readSlice (c :: (cs ++ '\n' :: rest)) = _
    rw [readSlice, if_neg hc, ih hcs]
    rfl

theorem readSlice_no_nl (l : GoString) (h : '\n' ∉ l) : readSlice l = (l, []) := by
  induction l with
  | nil => rfl
  | cons c cs ih =>
    have hc : c ≠ '\n' := fun e => h (e ▸ List.mem_cons_self _ _)
    have hcs : '\n' ∉ cs := fun e => h (List.mem_cons_of_mem _ e)
    simp only [readSlice, if_neg hc, ih hcs]

theorem readSlice_append_of_mem (s t : GoString) (h : '\n' ∈ s) :
    readSlice (s ++ t) = ((readSlice s).1, (readSlice s).2 ++ t) := by
  induction s with
  | nil => simp at h
  | cons c cs ih =>
    by_cases hc : c = '\n'
    · simp [readSlice, hc]
    · have hcs : '\n' ∈ cs := by
        rcases List.mem_cons.mp h with e | e
        · exact absurd e.symm hc
        · exact e
      show readSlice (c :: (cs ++ t)) = _
      rw [readSlice, if_neg hc, ih hcs, readSlice, if_neg hc]

/-- The line and the error of `readLine` depend on the slice `ReadSlice` returned only. -/
theorem readLine_fst_eq (s t : GoString) (h : (readSlice s).1 = (readSlice t).1) :
    (readLine s).1 = (readLine t).1 ∧ (readLine s).2.1 = (readLine t).2.1 := by
  unfold readLine
  simp only [h, and_self]

theorem readLine_rest (s : GoString) : (readLine s).2.2 = (readSlice s).2 := rfl

theorem readLine_nil : readLine [] = ([], true, []) := by decide

theorem readLine_err {s : GoString} (h : s ≠ []) : (readLine s).2.1 = false := by
  have := readSlice_fst_ne_nil h
  unfold readLine
  simp [this]

theorem readLine_err_iff (s : GoString) : (readLine s).2.1 = true ↔ s = [] := by
  constructor
  · intro h
    by_contra hs
    rw [readLine_err hs] at h
    cases h
  · rintro rfl; rfl

theorem readLine_fst_length (s : GoString) :
    (readLine s).1.length ≤ (readSlice s).1.length := by
  have hnorm : ∀ l : GoString,
      (if l.dropLast.getLast? = some '\r' ∧ l.getLast? = some '\n'
        then l.dropLast.dropLast ++ ['\n'] else l).length ≤ l.length := by
    intro l
    split
    · rename_i hc
      have : l.dropLast ≠ [] := by
        intro e; rw [e] at hc; simp at hc
      have h1 : 0 < l.dropLast.length := List.length_pos.mpr this
      simp only [List.length_append, List.length_dropLast, List.length_singleton] at h1 ⊢
      omega
    · exact le_refl _
  unfold readLine
  simp only
  refine le_trans (hnorm _) ?_
  split
  · simp
  · exact le_refl _

theorem readLine_length (s : GoString) :
    (readLine s).1.length + (readLine s).2.2.length ≤ s.length := by
  have h1 := readLine_fst_length s
  have h2 := readSlice_length s
  rw [readLine_rest]
  omega

theorem readLine_rest_lt {s : GoString} (h : s ≠ []) :
    (readLine s).2.2.length < s.length := by
  have h1 := readSlice_fst_ne_nil h
  have h2 := readSlice_length s
  rw [readLine_rest]
  have : 0 < (readSlice s).1.length := List.length_pos.mpr h1
  omega

theorem readLine_rest_le (s : GoString) : (readLine s).2.2.length ≤ s.length := by
  have h2 := readSlice_length s
  rw [readLine_rest]
  omega

/-! ### Fuel -/

theorem skipLines_succ (fuel : Nat) (input : GoString) :
    skipLines (fuel + 1) input =
      if (readLine input).1.head? = some ';' then
        if (readLine input).2.1 then some ([], (readLine input).2.1, (readLine input).2.2)
        else skipLines fuel (readLine input).2.2
      else if (readLine input).2.1 = false ∧
          (readLine input).1.length = lengthNL (readLine input).1 then
        skipLines fuel (readLine input).2.2
      else some ((readLine input).1, (readLine input).2.1, (readLine input).2.2) := rfl

theorem skipLines_spec (fuel : Nat) (input : GoString) (h : input.length < fuel) :
    ∃ line err rest, skipLines fuel input = some (line, err, rest) ∧
      line.length + rest.length ≤ input.length ∧
      (err = false → rest.length < input.length) ∧
      ∀ fuel', input.length < fuel' → skipLines fuel' input = some (line, err, rest) := by
  induction fuel generalizing input with
  | zero => omega
  | succ fuel ih =>
    have hrec : (readLine input).2.1 = false →
        ∃ line err rest, skipLines fuel (readLine input).2.2 = some (line, err, rest) ∧
          line.length + rest.length ≤ input.length ∧
          (err = false → rest.length < input.length) ∧
          ∀ fuel', input.length < fuel' + 1 →
            skipLines fuel' (readLine input).2.2 = some (line, err, rest) := by
      intro he
      have hne : input ≠ [] := fun e => by rw [e] at he; cases he
      have hlt := readLine_rest_lt hne
      obtain ⟨line, err, rest, h1, h2, h3, h4⟩ := ih (readLine input).2.2 (by omega)
      exact ⟨line, err, rest, h1, by omega, fun e => by have := h3 e; omega,
        fun f' hf' => h4 f' (by omega)⟩
    by_cases hc : (readLine input).1.head? = some ';'
    · have hne : input ≠ [] := fun e => by rw [e] at hc; cases hc
      have he : (readLine input).2.1 = false := readLine_err hne
      obtain ⟨line, err, rest, h1, h2, h3, h4⟩ := hrec he
      refine ⟨line, err, rest, ?_, h2, h3, ?_⟩
      · rw [skipLines_succ, if_pos hc, he]; exact h1
      · intro f' hf'
        cases f' with
        | zero => omega
        | succ f' => rw [skipLines_succ, if_pos hc, he]; exact h4 f' hf'
    · by_cases hb : (readLine input).2.1 = false ∧
          (readLine input).1.length = lengthNL (readLine input).1
      · obtain ⟨line, err, rest, h1, h2, h3, h4⟩ := hrec hb.1
        refine ⟨line, err, rest, ?_, h2, h3, ?_⟩
        · rw [skipLines_succ, if_neg hc, if_pos hb]; exact h1
        · intro f' hf'
          cases f' with
          | zero => omega
          | succ f' => rw [skipLines_succ, if_neg hc, if_pos hb]; exact h4 f' hf'
      · refine ⟨(readLine input).1, (readLine input).2.1, (readLine input).2.2, ?_,
          readLine_length input, ?_, ?_⟩
        · rw [skipLines_succ, if_neg hc, if_neg hb]
        · intro he
          have hne : input ≠ [] := fun e => by rw [e] at he; cases he
          exact readLine_rest_lt hne
        · intro f' hf'
          cases f' with
          | zero => omega
          | succ f' => rw [skipLines_succ, if_neg hc, if_neg hb]

/-! ### `indexByte` -/

theorem indexByte_eq_none_iff (l : GoString) (c : Char) : indexByte l c = none ↔ c ∉ l := by
  induction l with
  | nil => simp [indexByte]
  | cons x xs ih =>
    unfold indexByte
    by_cases hx : x = c
    · simp [hx]
    · rw [if_neg hx]
      simp only [Option.map_eq_none', ih, List.mem_cons, not_or]
      exact ⟨fun h => ⟨fun e => hx e.symm, h⟩, fun h => h.2⟩

theorem indexByte_some (l : GoString) (c : Char) (i : Nat) (h : indexByte l c = some i) :
    c ∉ l.take i ∧ l = l.take i ++ c :: l.drop (i + 1) ∧ i < l.length := by
  induction l generalizing i with
  | nil => simp [indexByte] at h
  | cons x xs ih =>
    unfold indexByte at h
    by_cases hx : x = c
    · rw [if_pos hx] at h
      cases h
      simp [hx]
    · rw [if_neg hx] at h
      cases hj : indexByte xs c with
      | none => rw [hj] at h; cases h
      | some j =>
        rw [hj] at h
        simp only [Option.map_some', Option.some.injEq] at h
        subst h
        obtain ⟨h1, h2, h3⟩ := ih j hj
        refine ⟨?_, ?_, ?_⟩
        · simp only [List.take_succ_cons, List.mem_cons, not_or]
          exact ⟨fun e => hx e.symm, h1⟩
        · simp only [List.take_succ_cons, List.drop_succ_cons, List.cons_append, List.cons.injEq,
            true_and]
          exact h2
        · simp only [List.length_cons]; omega

theorem indexByte_append_of_not_mem (l r : GoString) (c : Char) (h : c ∉ l) :
    indexByte (l ++ c :: r) c = some l.length := by
  induction l with
  | nil => simp [indexByte]
  | cons x xs ih =>
    have hx : x ≠ c := fun e => h (e ▸ List.mem_cons_self _ _)
    have hxs : c ∉ xs := fun e => h (List.mem_cons_of_mem _ e)
    show indexByte (x :: (xs ++ c :: r)) c = _
    rw [indexByte, if_neg hx, ih hxs]
    rfl

/-! ### `parseFields`, one step -/

theorem parseFields_start_quote (fuel : Nat) (line rest : GoString) (fields : List GoString)
    (h : line.head? = some '"') :
    parseFields (fuel + 1) line rest fields none =
      parseFields fuel (line.drop 1) rest fields (some []) := by
  rw [parseFields, if_neg (by simpa using h)]

theorem parseFields_start_comma (fuel : Nat) (line rest : GoString) (fields : List GoString)
    (i : Nat) (h : line.head? ≠ some '"') (hi : indexByte line ',' = some i) :
    parseFields (fuel + 1) line rest fields none =
      if indexByte (line.take i) '"' ≠ none then some (.error .ErrBareQuote)
      else parseFields fuel (line.drop (i + 1)) rest (fields ++ [line.take i]) none := by
  rw [parseFields, if_pos h, hi]

theorem parseFields_start_last (fuel : Nat) (line rest : GoString) (fields : List GoString)
    (h : line.head? ≠ some '"') (hi : indexByte line ',' = none) :
    parseFields (fuel + 1) line rest fields none =
      if indexByte (line.take (line.length - lengthNL line)) '"' ≠ none then
        some (.error .ErrBareQuote)
      else some (.record (fields ++ [line.take (line.length - lengthNL line)]) rest) := by
  rw [parseFields, if_pos h, hi]

theorem parseFields_quoted_quote (fuel : Nat) (line rest buf : GoString)
    (fields : List GoString) (i : Nat) (hi : indexByte line '"' = some i) :
    parseFields (fuel + 1) line rest fields (some buf) =
      if (line.drop (i + 1)).head? = some '"' then
        parseFields fuel (line.drop (i + 2)) rest fields (some (buf ++ line.take i ++ ['"']))
      else if (line.drop (i + 1)).head? = some ',' then
        parseFields fuel (line.drop (i + 2)) rest (fields ++ [buf ++ line.take i]) none
      else if lengthNL (line.drop (i + 1)) = (line.drop (i + 1)).length then
        some (.record (fields ++ [buf ++ line.take i]) rest)
      else some (.error .ErrQuote) := by
  rw [parseFields, hi]

theorem parseFields_quoted_eol (fuel : Nat) (line rest buf : GoString)
    (fields : List GoString) (hi : indexByte line '"' = none) :
    parseFields (fuel + 1) line rest fields (some buf) =
      if line.length > 0 then
        parseFields fuel (readLine rest).1 (readLine rest).2.2 fields (some (buf ++ line))
      else some (.error .ErrQuote) := by
  rw [parseFields, hi]

theorem parseFields_spec (fuel : Nat) (line rest : GoString) (fields : List GoString)
    (q : Option GoString) (h : line.length + rest.length < fuel) :
    ∃ res, parseFields fuel line rest fields q = some res ∧ res ≠ .eof ∧
      (∀ r rest', res = .record r rest' → rest'.length ≤ rest.length) ∧
      ∀ fuel', line.length + rest.length < fuel' →
        parseFields fuel' line rest fields q = some res := by
  induction fuel generalizing line rest fields q with
  | zero => omega
  | succ fuel ih =>
    have step : ∀ (line2 rest2 : GoString) (fields2 : List GoString) (q2 : Option GoString),
        line2.length + rest2.length < line.length + rest.length →
        rest2.length ≤ rest.length →
        ∃ res, parseFields fuel line2 rest2 fields2 q2 = some res ∧ res ≠ .eof ∧
          (∀ r rest', res = .record r rest' → rest'.length ≤ rest.length) ∧
          ∀ fuel', line.length + rest.length < fuel' + 1 →
            parseFields fuel' line2 rest2 fields2 q2 = some res := by
      intro line2 rest2 fields2 q2 hm hr
      obtain ⟨res, h1, h2, h3, h4⟩ := ih line2 rest2 fields2 q2 (by omega)
      exact ⟨res, h1, h2, fun r rest' e => le_trans (h3 r rest' e) hr,
        fun f' hf' => h4 f' (by omega)⟩
    have done : ∀ (res : ReadResult), res ≠ .eof →
        (∀ r rest', res = .record r rest' → rest'.length ≤ rest.length) →
        (∀ f', parseFields (f' + 1) line rest fields q = some res) →
        ∃ res, parseFields (fuel + 1) line rest fields q = some res ∧ res ≠ .eof ∧
          (∀ r rest', res = .record r rest' → rest'.length ≤ rest.length) ∧
          ∀ fuel', line.length + rest.length < fuel' →
            parseFields fuel' line rest fields q = some res := by
      intro res h1 h2 h3
      refine ⟨res, h3 fuel, h1, h2, fun f' hf' => ?_⟩
      cases f' with
      | zero => omega
      | succ f' => exact h3 f'
    have recur : ∀ (line2 rest2 : GoString) (fields2 : List GoString) (q2 : Option GoString),
        line2.length + rest2.length < line.length + rest.length →
        rest2.length ≤ rest.length →
        (∀ f', parseFields (f' + 1) line rest fields q =
          parseFields f' line2 rest2 fields2 q2) →
        ∃ res, parseFields (fuel + 1) line rest fields q = some res ∧ res ≠ .eof ∧
          (∀ r rest', res = .record r rest' → rest'.length ≤ rest.length) ∧
          ∀ fuel', line.length + rest.length < fuel' →
            parseFields fuel' line rest fields q = some res := by
      intro line2 rest2 fields2 q2 hm hr he
      obtain ⟨res, h1, h2, h3, h4⟩ := step line2 rest2 fields2 q2 hm hr
      refine ⟨res, by rw [he]; exact h1, h2, h3, fun f' hf' => ?_⟩
      cases f' with
      | zero => omega
      | succ f' => rw [he]; exact h4 f' hf'
    cases q with
    | none =>
      by_cases hq : line.head? = some '"'
      · have hne : line ≠ [] := fun e => by rw [e] at hq; cases hq
        have hl : 0 < line.length := List.length_pos.mpr hne
        exact recur (line.drop 1) rest fields (some [])
          (by simp only [List.length_drop]; omega) (le_refl _)
          (fun f' => parseFields_start_quote f' line rest fields hq)
      · cases hi : indexByte line ',' with
        | none =>
          by_cases hb : indexByte (line.take (line.length - lengthNL line)) '"' ≠ none
          · exact done (.error .ErrBareQuote) (by simp) (by simp)
              (fun f' => by rw [parseFields_start_last f' line rest fields hq hi, if_pos hb])
          · exact done (.record (fields ++ [line.take (line.length - lengthNL line)]) rest)
              (by simp) (by intro r rest' e; cases e; exact le_refl _)
              (fun f' => by rw [parseFields_start_last f' line rest fields hq hi, if_neg hb])
        | some i =>
          by_cases hb : indexByte (line.take i) '"' ≠ none
          · exact done (.error .ErrBareQuote) (by simp) (by simp)
              (fun f' => by rw [parseFields_start_comma f' line rest fields i hq hi, if_pos hb])
          · have hlt := (indexByte_some line ',' i hi).2.2
            exact recur (line.drop (i + 1)) rest (fields ++ [line.take i]) none
              (by simp only [List.length_drop]; omega) (le_refl _)
              (fun f' => by
                rw [parseFields_start_comma f' line rest fields i hq hi, if_neg hb])
    | some buf =>
      cases hi : indexByte line '"' with
      | none =>
        by_cases hl : line.length > 0
        · exact recur (readLine rest).1 (readLine rest).2.2 fields (some (buf ++ line))
            (by have := readLine_length rest; omega) (readLine_rest_le rest)
            (fun f' => by rw [parseFields_quoted_eol f' line rest buf fields hi, if_pos hl])
        · exact done (.error .ErrQuote) (by simp) (by simp)
            (fun f' => by rw [parseFields_quoted_eol f' line rest buf fields hi, if_neg hl])
      | some i =>
        have hlt := (indexByte_some line '"' i hi).2.2
        by_cases h1 : (line.drop (i + 1)).head? = some '"'
        · have hne : line.drop (i + 1) ≠ [] := fun e => by rw [e] at h1; cases h1
          exact recur (line.drop (i + 2)) rest fields (some (buf ++ line.take i ++ ['"']))
            (by simp only [List.length_drop]; omega) (le_refl _)
            (fun f' => by rw [parseFields_quoted_quote f' line rest buf fields i hi, if_pos h1])
        · by_cases h2 : (line.drop (i + 1)).head? = some ','
          · exact recur (line.drop (i + 2)) rest (fields ++ [buf ++ line.take i]) none
              (by simp only [List.length_drop]; omega) (le_refl _)
              (fun f' => by
                rw [parseFields_quoted_quote f' line rest buf fields i hi, if_neg h1,
                  if_pos h2])
          · by_cases h3 : lengthNL (line.drop (i + 1)) = (line.drop (i + 1)).length
            · exact done (.record (fields ++ [buf ++ line.take i]) rest) (by simp)
                (by intro r rest' e; cases e; exact le_refl _)
                (fun f' => by
                  rw [parseFields_quoted_quote f' line rest buf fields i hi, if_neg h1,
                    if_neg h2, if_pos h3])
            · exact done (.error .ErrQuote) (by simp) (by simp)
                (fun f' => by
                  rw [parseFields_quoted_quote f' line rest buf fields i hi, if_neg h1,
                    if_neg h2, if_neg h3])

theorem Read_spec (input : GoString) :
    ∃ res, Read input = some res ∧
      ∀ r rest, res = .record r rest → rest.length < input.length := by
  obtain ⟨line, err, rest, h1, h2, h3, -⟩ := skipLines_spec (input.length + 1) input (by omega)
  unfold Read
  rw [h1]
  cases err with
  | true => exact ⟨.eof, by simp, by simp⟩
  | false =>
    obtain ⟨res, p1, -, p3, -⟩ :=
      parseFields_spec (line.length + rest.length + 1) line rest [] none (by omega)
    refine ⟨res, by simpa using p1, fun r rest' e => ?_⟩
    have := p3 r rest' e
    have := h3 rfl
    omega

theorem readAll_spec (fuel : Nat) (input : GoString) (h : input.length < fuel) :
    ∃ x, readAll fuel input = some x ∧
      ∀ fuel', input.length < fuel' → readAll fuel' input = some x := by
  induction fuel generalizing input with
  | zero => omega
  | succ fuel ih =>
    obtain ⟨res, hR, hlt⟩ := Read_spec input
    cases res with
    | eof =>
      refine ⟨.ok [], by simp [readAll, hR], fun f' hf' => ?_⟩
      cases f' with
      | zero => omega
      | succ f' => simp [readAll, hR]
    | error e =>
      refine ⟨.error e, by simp [readAll, hR], fun f' hf' => ?_⟩
      cases f' with
      | zero => omega
      | succ f' => simp [readAll, hR]
    | record r rest =>
      have hl := hlt r rest rfl
      obtain ⟨x, hx, hx'⟩ := ih rest (by omega)
      refine ⟨match x with | .error e => .error e | .ok rs => .ok (r :: rs), ?_, ?_⟩
      · rw [readAll, hR]
        simp only [hx]
        cases x <;> rfl
      · intro f' hf'
        cases f' with
        | zero => omega
        | succ f' =>
          rw [readAll, hR]
          simp only [hx' f' (by omega)]
          cases x <;> rfl

theorem readAll_fuel (fuel fuel' : Nat) (input : GoString) (h : input.length < fuel)
    (h' : input.length < fuel') : readAll fuel input = readAll fuel' input := by
  obtain ⟨x, hx, hx'⟩ := readAll_spec fuel input h
  rw [hx, hx' fuel' h']

theorem loadLoop_fuel {bits : Nat} (fuel fuel' : Nat) (input : GoString) (acc : Acc)
    (h : input.length < fuel) (h' : input.length < fuel') :
    loadLoop bits fuel input acc = loadLoop bits fuel' input acc := by
  rw [loadLoop_eq_readAll, loadLoop_eq_readAll, readAll_fuel fuel fuel' input h h']

theorem records_isSome (r : GoString) : ∃ x, records r = some x := by
  obtain ⟨x, hx, -⟩ := readAll_spec (r.length + 1) r (by omega)
  exact ⟨x, hx⟩

theorem loadImageCSV_eq {bits : Nat} (r : GoString) :
    loadImageCSV bits r = (records r).map (resultOf bits ⟨[], [], []⟩) := by
  unfold loadImageCSV records
  rw [loadLoop_eq_readAll]

/-- The fuel `loadImageCSV` gives its loops is always enough: it returns for every input. -/
theorem loadImageCSV_total {bits : Nat} (r : GoString) : ∃ res, loadImageCSV bits r = some res := by
  obtain ⟨x, hx⟩ := records_isSome r
  exact ⟨resultOf bits ⟨[], [], []⟩ x, by rw [loadImageCSV_eq, hx]; rfl⟩

/-! ### Reading a prefix of complete lines -/

theorem endsLines_mem {s : GoString} (h : endsLines s) (hne : s ≠ []) : '\n' ∈ s := by
  rcases h with h | h
  · exact absurd h hne
  · obtain ⟨ys, rfl⟩ := List.getLast?_eq_some_iff.1 h
    simp

theorem endsLines_rest {s : GoString} (h : endsLines s) : endsLines (readSlice s).2 := by
  by_cases h2 : (readSlice s).2 = []
  · exact Or.inl h2
  · right
    rcases h with h | h
    · rw [h] at h2; exact absurd rfl h2
    · have := readSlice_append s
      rw [← this, List.getLast?_append_of_ne_nil _ h2] at h
      exact h

theorem readLine_append {s : GoString} (t : GoString) (h : endsLines s) (hne : s ≠ []) :
    readLine (s ++ t) = ((readLine s).1, false, (readLine s).2.2 ++ t) := by
  have hs := readSlice_append_of_mem s t (endsLines_mem h hne)
  have h1 : (readSlice (s ++ t)).1 = (readSlice s).1 := by rw [hs]
  obtain ⟨e1, e2⟩ := readLine_fst_eq (s ++ t) s h1
  have e3 : (readLine (s ++ t)).2.2 = (readLine s).2.2 ++ t := by
    rw [readLine_rest, readLine_rest, hs]
  rw [readLine_err hne] at e2
  rw [← e1, ← e2, ← e3]

theorem endsLines_readLine {s : GoString} (h : endsLines s) : endsLines (readLine s).2.2 := by
  rw [readLine_rest]; exact endsLines_rest h

theorem skipLines_append (fuel : Nat) (pre post : GoString) (fuel' : Nat)
    (hc : endsLines pre) (hf' : pre.length + post.length < fuel') :
    (∀ line rest, skipLines fuel pre = some (line, false, rest) →
        skipLines fuel' (pre ++ post) = some (line, false, rest ++ post) ∧ endsLines rest) ∧
      (∀ line rest, skipLines fuel pre = some (line, true, rest) →
        skipLines fuel' (pre ++ post) = skipLines fuel' post) := by
  induction fuel generalizing pre fuel' with
  | zero => simp [skipLines]
  | succ fuel ih =>
    by_cases hne : pre = []
    · subst hne
      have : skipLines (fuel + 1) [] = some ([], true, []) := by
        rw [skipLines_succ]; simp [readLine_nil]
      rw [this]
      simp
    · cases fuel' with
      | zero => omega
      | succ f' =>
        have hRL := readLine_append post hc hne
        have hlt := readLine_rest_lt hne
        have he := readLine_err hne
        have hcr := endsLines_readLine hc
        have hstep : ∀ (b : Bool) line rest,
            skipLines fuel (readLine pre).2.2 = some (line, b, rest) →
            (b = false → skipLines f' ((readLine pre).2.2 ++ post) =
                some (line, false, rest ++ post) ∧ endsLines rest) ∧
              (b = true → skipLines f' ((readLine pre).2.2 ++ post) =
                skipLines (f' + 1) post) := by
          intro b line rest hs
          obtain ⟨i1, i2⟩ := ih (readLine pre).2.2 f' hcr (by omega)
          constructor
          · intro hb; subst hb; exact i1 line rest hs
          · intro hb; subst hb
            rw [i2 line rest hs]
            obtain ⟨l, e, r, -, -, -, h4⟩ := skipLines_spec (f' + 1) post (by omega)
            rw [h4 f' (by omega), h4 (f' + 1) (by omega)]
        rw [skipLines_succ fuel pre, skipLines_succ f' (pre ++ post), hRL]
        simp only [he]
        by_cases hcm : (readLine pre).1.head? = some ';'
        · simp only [if_pos hcm, Bool.false_eq_true, if_false]
          exact ⟨fun line rest hs => (hstep false line rest hs).1 rfl,
            fun line rest hs => (hstep true line rest hs).2 rfl⟩
        · by_cases hb : (readLine pre).1.length = lengthNL (readLine pre).1
          · simp only [if_neg hcm, hb, and_self, if_true]
            exact ⟨fun line rest hs => (hstep false line rest hs).1 rfl,
              fun line rest hs => (hstep true line rest hs).2 rfl⟩
          · simp only [if_neg hcm, hb, and_false, if_false]
            constructor
            · intro line rest hs
              simp only [Option.some.injEq, Prod.mk.injEq, true_and] at hs
              obtain ⟨rfl, rfl⟩ := hs
              exact ⟨rfl, hcr⟩
            · intro line rest hs
              simp at hs

theorem parseFields_append (fuel : Nat) (line rest : GoString) (fields : List GoString)
    (q : Option GoString) (r : List GoString) (rest' post : GoString) (fuel' : Nat)
    (hc : endsLines rest)
    (h : parseFields fuel line rest fields q = some (.record r rest'))
    (hf' : line.length + rest.length + post.length < fuel') :
    parseFields fuel' line (rest ++ post) fields q = some (.record r (rest' ++ post)) ∧
      endsLines rest' := by
  induction fuel generalizing line rest fields q fuel' with
  | zero => simp [parseFields] at h
  | succ fuel ih =>
    cases fuel' with
    | zero => omega
    | succ f' =>
      cases q with
      | none =>
        by_cases hq : line.head? = some '"'
        · have hne : line ≠ [] := fun e => by rw [e] at hq; cases hq
          have hl : 0 < line.length := List.length_pos.mpr hne
          rw [parseFields_start_quote _ _ _ _ hq] at h ⊢
          exact ih _ _ _ _ _ hc h (by simp only [List.length_drop]; omega)
        · cases hi : indexByte line ',' with
          | none =>
            rw [parseFields_start_last _ _ _ _ hq hi] at h ⊢
            split at h
            · cases h
            · rename_i hb
              rw [if_neg hb]
              simp only [Option.some.injEq, ReadResult.record.injEq] at h
              obtain ⟨rfl, rfl⟩ := h
              exact ⟨rfl, hc⟩
          | some i =>
            have hlt := (indexByte_some line ',' i hi).2.2
            rw [parseFields_start_comma _ _ _ _ i hq hi] at h ⊢
            split at h
            · cases h
            · rename_i hb
              rw [if_neg hb]
              exact ih _ _ _ _ _ hc h (by simp only [List.length_drop]; omega)
      | some buf =>
        cases hi : indexByte line '"' with
        | none =>
          rw [parseFields_quoted_eol _ _ _ _ _ hi] at h ⊢
          split at h
          · rename_i hl
            rw [if_pos hl]
            by_cases hne : rest = []
            · exfalso
              subst hne
              rw [readLine_nil] at h
              cases fuel with
              | zero => simp [parseFields] at h
              | succ fuel =>
                rw [parseFields_quoted_eol _ _ _ _ _ (by rfl)] at h
                simp at h
            · rw [readLine_append post hc hne]
              have := readLine_length rest
              exact ih _ _ _ _ _ (endsLines_readLine hc) h (by simp only; omega)
          · cases h
        | some i =>
          have hlt := (indexByte_some line '"' i hi).2.2
          rw [parseFields_quoted_quote _ _ _ _ _ i hi] at h ⊢
          split at h
          · rename_i h1
            rw [if_pos h1]
            exact ih _ _ _ _ _ hc h (by simp only [List.length_drop]; omega)
          · rename_i h1
            rw [if_neg h1]
            split at h
            · rename_i h2
              rw [if_pos h2]
              exact ih _ _ _ _ _ hc h (by simp only [List.length_drop]; omega)
            · rename_i h2
              rw [if_neg h2]
              split at h
              · rename_i h3
                rw [if_pos h3]
                simp only [Option.some.injEq, ReadResult.record.injEq] at h
                obtain ⟨rfl, rfl⟩ := h
                exact ⟨rfl, hc⟩
              · cases h

theorem Read_append_record (pre post : GoString) (r : List GoString) (rest : GoString)
    (hc : endsLines pre) (h : Read pre = some (.record r rest)) :
    Read (pre ++ post) = some (.record r (rest ++ post)) ∧ endsLines rest := by
  unfold Read at h
  obtain ⟨line, err, rest0, h1, h2, h3, h4⟩ := skipLines_spec (pre.length + 1) pre (by omega)
  rw [h1] at h
  cases err with
  | true => simp at h
  | false =>
    simp only [Bool.false_eq_true, if_false] at h
    obtain ⟨s1, s2⟩ := (skipLines_append (pre.length + 1) pre post ((pre ++ post).length + 1)
      hc (by simp)).1 line rest0 h1
    obtain ⟨p1, p2⟩ := parseFields_append _ line rest0 [] none r rest post
      (line.length + (rest0 ++ post).length + 1) s2 h (by simp; omega)
    refine ⟨?_, p2⟩
    unfold Read
    rw [s1]
    simpa using p1

theorem Read_append_eof (pre post : GoString) (hc : endsLines pre)
    (h : Read pre = some .eof) : Read (pre ++ post) = Read post := by
  unfold Read at h
  obtain ⟨line, err, rest0, h1, h2, h3, h4⟩ := skipLines_spec (pre.length + 1) pre (by omega)
  rw [h1] at h
  cases err with
  | false =>
    simp only [Bool.false_eq_true, if_false] at h
    obtain ⟨res, p1, p2, -, -⟩ :=
      parseFields_spec (line.length + rest0.length + 1) line rest0 [] none (by omega)
    rw [p1] at h
    simp only [Option.some.injEq] at h
    exact absurd h p2
  | true =>
    have s := (skipLines_append (pre.length + 1) pre post ((pre ++ post).length + 1)
      hc (by simp)).2 line rest0 h1
    obtain ⟨l, e, r, -, -, -, k4⟩ := skipLines_spec (post.length + 1) post (by omega)
    unfold Read
    rw [s, k4 _ (by simp; omega), k4 _ (by omega)]

theorem prependRecords_nil (x : Except ParseError (List (List GoString))) :
    prependRecords [] x = x := by
  cases x <;> rfl

theorem readAll_succ (fuel : Nat) (input : GoString) :
    readAll (fuel + 1) input =
      match Read input with
      | none => none
      | some .eof => some (.ok [])
      | some (.error e) => some (.error e)
      | some (.record record rest) => (readAll fuel rest).map (prependRecords [record]) := by
  rw [readAll]
  cases Read input with
  | none => rfl
  | some res =>
    cases res with
    | eof => rfl
    | error e => rfl
    | record r rest =>
      simp only
      cases readAll fuel rest with
      | none => rfl
      | some x => cases x <;> rfl

theorem readAll_append (fuel : Nat) (pre post : GoString) (rs : List (List GoString))
    (fuel' : Nat) (hc : endsLines pre) (h : readAll fuel pre = some (.ok rs))
    (hf' : pre.length + post.length < fuel') :
    readAll fuel' (pre ++ post) = (readAll fuel' post).map (prependRecords rs) := by
  induction fuel generalizing pre rs fuel' with
  | zero => simp [readAll] at h
  | succ fuel ih =>
    cases fuel' with
    | zero => omega
    | succ f' =>
      rw [readAll_succ] at h
      cases hR : Read pre with
      | none => rw [hR] at h; cases h
      | some res =>
        rw [hR] at h
        cases res with
        | eof =>
          simp only [Option.some.injEq, Except.ok.injEq] at h
          subst h
          rw [readAll_succ, Read_append_eof pre post hc hR, ← readAll_succ]
          cases readAll (f' + 1) post with
          | none => rfl
          | some x => simp [prependRecords_nil]
        | error e => simp at h
        | record r rest =>
          simp only at h
          obtain ⟨hA, hcr⟩ := Read_append_record pre post r rest hc hR
          obtain ⟨res, hres, hlt⟩ := Read_spec pre
          rw [hR] at hres
          simp only [Option.some.injEq] at hres
          have hl := hlt r rest hres.symm
          cases hrs : readAll fuel rest with
          | none => rw [hrs] at h; cases h
          | some x =>
            rw [hrs] at h
            cases x with
            | error e => simp [prependRecords] at h
            | ok rs1 =>
              simp only [Option.map_some', prependRecords, List.singleton_append,
                Option.some.injEq, Except.ok.injEq] at h
              subst h
              rw [readAll_succ, hA]
              simp only
              rw [ih rest rs1 f' hcr hrs (by omega),
                readAll_fuel (f' + 1) f' post (by omega) (by omega)]
              cases readAll f' post with
              | none => rfl
              | some y => cases y <;> simp [prependRecords]

theorem records_append (pre post : GoString) (rs : List (List GoString))
    (hc : endsLines pre) (h : records pre = some (.ok rs)) :
    records (pre ++ post) = (records post).map (prependRecords rs) := by
  unfold records at h ⊢
  rw [readAll_append _ pre post rs _ hc h (by simp),
    readAll_fuel ((pre ++ post).length + 1) (post.length + 1) post (by simp; omega) (by omega)]

theorem records_congr (a b : GoString) (h : Read a = Read b) : records a = records b := by
  unfold records
  rw [readAll_succ, readAll_succ, h]
  obtain ⟨ra, hra, hla⟩ := Read_spec a
  obtain ⟨rb, hrb, hlb⟩ := Read_spec b
  rw [h] at hra
  rw [hrb] at hra ⊢
  simp only [Option.some.injEq] at hra
  subst hra
  cases rb with
  | eof => rfl
  | error e => rfl
  | record r rest =>
    simp only
    rw [readAll_fuel a.length b.length rest (hla r rest rfl) (hlb r rest rfl)]

theorem parsesCleanly_iff {bits : Nat} (s : GoString) :
    parsesCleanly bits s ↔ ∃ rs, records s = some (.ok rs) := by
  unfold parsesCleanly
  rw [loadImageCSV_eq]
  obtain ⟨x, hx⟩ := records_isSome s
  rw [hx]
  cases x with
  | error e => simp [resultOf]
  | ok rs => simp [resultOf]

theorem loadImageCSV_congr {bits : Nat} (a b : GoString) (h : records a = records b) :
    loadImageCSV bits a = loadImageCSV bits b := by
  rw [loadImageCSV_eq, loadImageCSV_eq, h]

/-- Skipping a line at a record boundary: if the reader skips the first line of `x ++ post`
and goes on with `post`, the same holds after any cleanly parsed text of complete lines. -/
theorem loadImageCSV_skip {bits : Nat} (pre x post : GoString) (hc : endsLines pre)
    (hp : parsesCleanly bits pre) (hx : Read (x ++ post) = Read post) :
    loadImageCSV bits (pre ++ x ++ post) = loadImageCSV bits (pre ++ post) := by
  obtain ⟨rs, hrs⟩ := (parsesCleanly_iff pre).1 hp
  apply loadImageCSV_congr
  rw [List.append_assoc, records_append pre (x ++ post) rs hc hrs,
    records_append pre post rs hc hrs, records_congr _ _ hx]

/-! ### `readLine` on a line given by its text -/

theorem getLast?_ne_of_not_mem {l : GoString} {c : Char} (h : c ∉ l) :
    l.getLast? ≠ some c := by
  intro e
  obtain ⟨ys, rfl⟩ := List.getLast?_eq_some_iff.1 e
  simp at h

theorem readLine_of_nl (l post : GoString) (h : '\n' ∉ l) :
    readLine (l ++ '\n' :: post) =
      ((if l.getLast? = some '\r' then l.dropLast else l) ++ ['\n'], false, post) := by
  have e : l ++ '\n' :: post = (l ++ ['\n']) ++ post := by simp
  unfold readLine
  rw [readSlice_of_nl l post h]
  simp only [List.getLast?_concat, List.dropLast_concat, ne_eq, not_true_eq_false,
    decide_False, Bool.false_and, Bool.false_eq_true, false_and, and_false, if_false,
    and_true]
  split
  · rename_i hr
    obtain ⟨ys, rfl⟩ := List.getLast?_eq_some_iff.1 hr
    simp
  · rfl

theorem readLine_no_nl (l : GoString) (h : '\n' ∉ l) (hne : l ≠ []) :
    readLine l = ((if l.getLast? = some '\r' then l.dropLast else l), false, []) := by
  have hl : 0 < l.length := List.length_pos.mpr hne
  have hlast : l.getLast? ≠ some '\n' := getLast?_ne_of_not_mem h
  unfold readLine
  rw [readSlice_no_nl l h]
  simp only [hlast, ne_eq, not_false_eq_true, decide_True, hl, true_and, Bool.true_and,
    decide_eq_true_eq, and_false, if_false]
  have hl0 : l.length ≠ 0 := by omega
  simp only [hl0, decide_False]
  split
  · rename_i hr
    have : (l.dropLast).getLast? ≠ some '\n' :=
      getLast?_ne_of_not_mem (fun e => h (List.mem_of_mem_dropLast e))
    simp [this]
  · simp [hlast]

theorem Read_skip (input : GoString) (hne : input ≠ [])
    (h : (readLine input).1.head? = some ';' ∨
      (readLine input).1.length = lengthNL (readLine input).1) :
    Read input = Read (readLine input).2.2 := by
  have he := readLine_err hne
  have hlt := readLine_rest_lt hne
  obtain ⟨l, e, r, -, -, -, k4⟩ :=
    skipLines_spec ((readLine input).2.2.length + 1) (readLine input).2.2 (by omega)
  have : skipLines (input.length + 1) input =
      skipLines ((readLine input).2.2.length + 1) (readLine input).2.2 := by
    rw [skipLines_succ, he, k4 input.length hlt,
      k4 ((readLine input).2.2.length + 1) (by omega)]
    by_cases hc : (readLine input).1.head? = some ';'
    · simp [hc]
    · have hb := h.resolve_left hc
      simp [hc, hb]
  unfold Read
  rw [this]

theorem Read_comment_line (c post : GoString) (h : '\n' ∉ c) :
    Read ((';' :: c ++ ['\n']) ++ post) = Read post := by
  have hl : '\n' ∉ ';' :: c := by
    simp only [List.mem_cons, not_or]
    exact ⟨by decide, h⟩
  have e : (';' :: c ++ ['\n']) ++ post = (';' :: c) ++ '\n' :: post := by simp
  have hR := readLine_of_nl (';' :: c) post hl
  rw [e, Read_skip _ (by simp), hR]
  left
  rw [hR]
  simp only
  split
  · rename_i hr
    cases c with
    | nil => simp at hr
    | cons x xs => simp [List.dropLast]
  · rfl

theorem Read_comment_eof (c : GoString) (h : '\n' ∉ c) :
    Read (';' :: c) = Read [] := by
  have hl : '\n' ∉ ';' :: c := by
    simp only [List.mem_cons, not_or]
    exact ⟨by decide, h⟩
  have hR := readLine_no_nl (';' :: c) hl (by simp)
  rw [Read_skip _ (by simp), hR]
  left
  rw [hR]
  simp only
  split
  · rename_i hr
    cases c with
    | nil => simp at hr
    | cons x xs => simp [List.dropLast]
  · rfl

theorem split_at_nl (s : GoString) :
    (∃ l post, '\n' ∉ l ∧ s = l ++ '\n' :: post) ∨ '\n' ∉ s := by
  induction s with
  | nil => right; simp
  | cons c cs ih =>
    by_cases hc : c = '\n'
    · left; exact ⟨[], cs, by simp, by simp [hc]⟩
    · rcases ih with ⟨l, post, hl, e⟩ | h
      · left
        refine ⟨c :: l, post, ?_, by simp [e]⟩
        simp only [List.mem_cons, not_or]
        exact ⟨fun e => hc e.symm, hl⟩
      · right
        simp only [List.mem_cons, not_or]
        exact ⟨fun e => hc e.symm, h⟩

theorem readLine_mem (s : GoString) (c : Char) :
    (c ∈ (readLine s).1 → c ∈ s) ∧ (c ∈ (readLine s).2.2 → c ∈ s) := by
  rcases split_at_nl s with ⟨l, post, hl, rfl⟩ | h
  · rw [readLine_of_nl l post hl]
    simp only [List.mem_append, List.mem_singleton, List.mem_cons]
    constructor
    · rintro (h | h)
      · left
        split at h
        · exact List.mem_of_mem_dropLast h
        · exact h
      · right; left; simpa using h
    · intro h; right; right; exact h
  · by_cases hne : s = []
    · subst hne; simp [readLine_nil]
    · rw [readLine_no_nl s h hne]
      simp only [List.not_mem_nil, false_imp_iff, and_true]
      intro hm
      split at hm
      · exact List.mem_of_mem_dropLast hm
      · exact hm

theorem skipLines_mem (fuel : Nat) (input line rest : GoString) (err : Bool) (c : Char)
    (h : skipLines fuel input = some (line, err, rest)) :
    (c ∈ line → c ∈ input) ∧ (c ∈ rest → c ∈ input) := by
  induction fuel generalizing input with
  | zero => simp [skipLines] at h
  | succ fuel ih =>
    have hm := readLine_mem input c
    rw [skipLines_succ] at h
    split at h
    · split at h
      · simp only [Option.some.injEq, Prod.mk.injEq] at h
        obtain ⟨rfl, -, rfl⟩ := h
        exact ⟨by simp, hm.2⟩
      · have := ih _ h
        exact ⟨fun x => hm.2 (this.1 x), fun x => hm.2 (this.2 x)⟩
    · split at h
      · have := ih _ h
        exact ⟨fun x => hm.2 (this.1 x), fun x => hm.2 (this.2 x)⟩
      · simp only [Option.some.injEq, Prod.mk.injEq] at h
        obtain ⟨rfl, -, rfl⟩ := h
        exact hm

theorem parseFields_no_quote (fuel : Nat) (line rest : GoString) (fields : List GoString)
    (hq : '"' ∉ line) (hf : line.length < fuel) :
    ∃ r, parseFields fuel line rest fields none = some (.record r rest) := by
  induction fuel generalizing line fields with
  | zero => omega
  | succ fuel ih =>
    have hh : line.head? ≠ some '"' := by
      intro e
      cases line with
      | nil => cases e
      | cons x xs => simp only [List.head?_cons, Option.some.injEq] at e; simp [e] at hq
    cases hi : indexByte line ',' with
    | none =>
      rw [parseFields_start_last _ _ _ _ hh hi]
      have : indexByte (line.take (line.length - lengthNL line)) '"' = none :=
        (indexByte_eq_none_iff _ _).2 (fun e => hq (List.mem_of_mem_take e))
      rw [if_neg (by simp [this])]
      exact ⟨_, rfl⟩
    | some i =>
      have hlt := (indexByte_some line ',' i hi).2.2
      rw [parseFields_start_comma _ _ _ _ i hh hi]
      have : indexByte (line.take i) '"' = none :=
        (indexByte_eq_none_iff _ _).2 (fun e => hq (List.mem_of_mem_take e))
      rw [if_neg (by simp [this])]
      exact ih _ _ (fun e => hq (List.mem_of_mem_drop e))
        (by simp only [List.length_drop]; omega)

theorem Read_no_quote (input : GoString) (hq : '"' ∉ input) :
    Read input = some .eof ∨
      ∃ r rest, Read input = some (.record r rest) ∧ '"' ∉ rest := by
  obtain ⟨line, err, rest, h1, -, -, -⟩ := skipLines_spec (input.length + 1) input (by omega)
  have hm := skipLines_mem _ _ _ _ _ '"' h1
  unfold Read
  rw [h1]
  cases err with
  | true => left; rfl
  | false =>
    right
    obtain ⟨r, hr⟩ := parseFields_no_quote (line.length + rest.length + 1) line rest []
      (fun e => hq (hm.1 e)) (by omega)
    exact ⟨r, rest, by simpa using hr, fun e => hq (hm.2 e)⟩

theorem readAll_no_quote (fuel : Nat) (input : GoString) (hq : '"' ∉ input)
    (hf : input.length < fuel) : ∃ rs, readAll fuel input = some (.ok rs) := by
  induction fuel generalizing input with
  | zero => omega
  | succ fuel ih =>
    rw [readAll_succ]
    rcases Read_no_quote input hq with h | ⟨r, rest, h, hr⟩
    · rw [h]; exact ⟨[], rfl⟩
    · obtain ⟨res, hres, hlt⟩ := Read_spec input
      rw [h] at hres
      simp only [Option.some.injEq] at hres
      have hl := hlt r rest hres.symm
      obtain ⟨rs, hrs⟩ := ih rest hr (by omega)
      rw [h]
      simp only [hrs]
      exact ⟨r :: rs, rfl⟩

/-! ### Lines of unquoted fields -/

theorem parseFields_plain_comma (fuel : Nat) (f line rest : GoString)
    (fields : List GoString) (hf : plainField f) :
    parseFields (fuel + 1) (f ++ ',' :: line) rest fields none =
      parseFields fuel line rest (fields ++ [f]) none := by
  have hh : (f ++ ',' :: line).head? ≠ some '"' := by
    cases f with
    | nil => simp
    | cons x xs =>
      simp only [List.cons_append, List.head?_cons, ne_eq, Option.some.injEq]
      intro e
      exact hf.2.1 (e ▸ List.mem_cons_self _ _)
  have hi := indexByte_append_of_not_mem f line ',' hf.1
  rw [parseFields_start_comma _ _ _ _ _ hh hi]
  have ht : (f ++ ',' :: line).take f.length = f := by simp
  have hd : (f ++ ',' :: line).drop (f.length + 1) = line := by
    rw [← List.drop_drop]; simp
  rw [ht, hd, if_neg (by simp [(indexByte_eq_none_iff f '"').2 hf.2.1])]

theorem parseFields_plain_last (fuel : Nat) (f rest : GoString) (fields : List GoString)
    (hf : plainField f) :
    parseFields (fuel + 1) (f ++ ['\n']) rest fields none =
      some (.record (fields ++ [f]) rest) := by
  have hh : (f ++ ['\n']).head? ≠ some '"' := by
    cases f with
    | nil => simp
    | cons x xs =>
      simp only [List.cons_append, List.head?_cons, ne_eq, Option.some.injEq]
      intro e
      exact hf.2.1 (e ▸ List.mem_cons_self _ _)
  have hi : indexByte (f ++ ['\n']) ',' = none := by
    rw [indexByte_eq_none_iff]
    simp only [List.mem_append, List.mem_singleton, not_or]
    exact ⟨hf.1, by decide⟩
  rw [parseFields_start_last _ _ _ _ hh hi]
  have hn : lengthNL (f ++ ['\n']) = 1 := by simp [lengthNL]
  have ht : (f ++ ['\n']).take ((f ++ ['\n']).length - lengthNL (f ++ ['\n'])) = f := by
    rw [hn]; simp
  rw [ht, if_neg (by simp [(indexByte_eq_none_iff f '"').2 hf.2.1])]

theorem intercalate_cons_cons (sep x y : GoString) (ys : List GoString) :
    List.intercalate sep (x :: y :: ys) = x ++ (sep ++ List.intercalate sep (y :: ys)) := by
  simp [List.intercalate, List.intersperse]

theorem intercalate_singleton (sep x : GoString) : List.intercalate sep [x] = x := by
  simp [List.intercalate, List.intersperse]

theorem parseFields_plain_line (fs : List GoString) (hne : fs ≠ [])
    (hfs : ∀ f ∈ fs, plainField f) (fuel : Nat) (rest : GoString) (fields : List GoString)
    (hfuel : fs.length ≤ fuel) :
    parseFields fuel (List.intercalate [','] fs ++ ['\n']) rest fields none =
      some (.record (fields ++ fs) rest) := by
  induction fs generalizing fuel fields with
  | nil => exact absurd rfl hne
  | cons f gs ih =>
    cases fuel with
    | zero => simp at hfuel
    | succ fuel =>
      cases gs with
      | nil =>
        rw [intercalate_singleton]
        exact parseFields_plain_last fuel f rest fields (hfs f (List.mem_cons_self _ _))
      | cons g gs =>
        rw [intercalate_cons_cons]
        have e : f ++ ([','] ++ List.intercalate [','] (g :: gs)) ++ ['\n'] =
            f ++ ',' :: (List.intercalate [','] (g :: gs) ++ ['\n']) := by simp
        rw [e, parseFields_plain_comma fuel f _ rest fields (hfs f (List.mem_cons_self _ _))]
        have := ih (by simp) (fun x hx => hfs x (List.mem_cons_of_mem _ hx)) fuel
          (fields ++ [f]) (by simpa using hfuel)
        rw [this]
        simp

theorem not_mem_intercalate (fs : List GoString) (c : Char) (hc : c ≠ ',')
    (hfs : ∀ f ∈ fs, c ∉ f) : c ∉ List.intercalate [','] fs := by
  induction fs with
  | nil => simp [List.intercalate]
  | cons f gs ih =>
    cases gs with
    | nil => rw [intercalate_singleton]; exact hfs f (List.mem_cons_self _ _)
    | cons g gs =>
      rw [intercalate_cons_cons]
      simp only [List.singleton_append, List.mem_append, List.mem_cons, not_or]
      exact ⟨hfs f (List.mem_cons_self _ _), hc,
        ih (fun x hx => hfs x (List.mem_cons_of_mem _ hx))⟩

theorem length_le_intercalate (fs : List GoString) :
    fs.length ≤ (List.intercalate [','] fs).length + 1 := by
  induction fs with
  | nil => simp
  | cons f gs ih =>
    cases gs with
    | nil => simp
    | cons g gs =>
      rw [intercalate_cons_cons]
      simp only [List.length_cons, List.singleton_append, List.length_append] at ih ⊢
      omega

/-- A line of unquoted fields joined by commas is read as exactly those fields. -/
theorem Read_plain_line (fs : List GoString) (post : GoString)
    (hfs : ∀ f ∈ fs, plainField f)
    (hne : List.intercalate [','] fs ≠ [])
    (hsemi : (List.intercalate [','] fs).head? ≠ some ';')
    (hcr : (List.intercalate [','] fs).getLast? ≠ some '\r') :
    Read (List.intercalate [','] fs ++ '\n' :: post) = some (.record fs post) := by
  have hfne : fs ≠ [] := by
    intro e; rw [e] at hne; simp [List.intercalate] at hne
  have hnl : '\n' ∉ List.intercalate [','] fs :=
    not_mem_intercalate fs '\n' (by decide) (fun f hf => (hfs f hf).2.2)
  have hR := readLine_of_nl _ post hnl
  rw [if_neg hcr] at hR
  have hpos : 0 < (List.intercalate [','] fs).length := List.length_pos.mpr hne
  have hS : ∀ fuel, skipLines (fuel + 1) (List.intercalate [','] fs ++ '\n' :: post) =
      some (List.intercalate [','] fs ++ ['\n'], false, post) := by
    intro fuel
    rw [skipLines_succ, hR]
    simp only
    have h1 : (List.intercalate [','] fs ++ ['\n']).head? ≠ some ';' := by
      rw [List.head?_append_of_ne_nil _ hne]; exact hsemi
    have h2 : ¬ ((List.intercalate [','] fs ++ ['\n']).length =
        lengthNL (List.intercalate [','] fs ++ ['\n'])) := by
      simp only [lengthNL, List.getLast?_concat, if_true, List.length_append,
        List.length_singleton]
      omega
    rw [if_neg h1, if_neg (fun h => h2 h.2)]
  unfold Read
  rw [hS]
  simp only [Bool.false_eq_true, if_false]
  have := parseFields_plain_line fs hfne hfs
    ((List.intercalate [','] fs ++ ['\n']).length + post.length + 1) post []
    (by have := length_le_intercalate fs; simp only [List.length_append,
      List.length_singleton]; omega)
  simpa using this

theorem Read_nil : Read [] = some .eof := by decide

theorem loadImageCSV_single {bits : Nat} (input : GoString) (r : List GoString)
    (h : Read input = some (.record r [])) :
    loadImageCSV bits input =
      some ⟨(processRecord bits ⟨[], [], []⟩ r).images,
        (processRecord bits ⟨[], [], []⟩ r).partialImages,
        (processRecord bits ⟨[], [], []⟩ r).warnings, none⟩ := by
  obtain ⟨res, hres, hlt⟩ := Read_spec input
  rw [h] at hres
  simp only [Option.some.injEq] at hres
  have hl := hlt r [] hres.symm
  unfold loadImageCSV
  rw [loadLoop_record _ input [] r _ h]
  obtain ⟨k, hk⟩ : ∃ k, input.length = k + 1 := ⟨input.length - 1, by
    simp only [List.length_nil] at hl; omega⟩
  rw [hk, loadLoop, Read_nil]

/-! ### `%d` -/

theorem digitChar_toNat (k : Nat) (hk : k < 10) :
    (Char.ofNat ('0'.toNat + k)).toNat = 48 + k := by
  interval_cases k <;> rfl

theorem decimalFrom_append (m : Nat) (a b : GoString) :
    decimalFrom m (a ++ b) = decimalFrom (decimalFrom m a) b := by
  simp [decimalFrom, List.foldl_append]

theorem fmtUintLoop_spec (fuel u : Nat) (buf : GoString) (hf : 0 < fuel)
    (hu : u < 10 ^ fuel) :
    ∃ ds, fmtUintLoop fuel u buf = ds ++ buf ∧ ds ≠ [] ∧ (∀ c ∈ ds, isDigit c) ∧
      ∀ m, decimalFrom m ds = m * 10 ^ ds.length + u := by
  induction fuel generalizing u buf with
  | zero => omega
  | succ fuel ih =>
    rw [fmtUintLoop]
    by_cases h10 : u ≥ 10
    · rw [if_pos h10]
      have hfuel : 0 < fuel := by
        rcases Nat.eq_zero_or_pos fuel with h | h
        · subst h; simp at hu; omega
        · exact h
      have hdiv : u / 10 < 10 ^ fuel := by
        rw [Nat.div_lt_iff_lt_mul (by norm_num)]
        rw [pow_succ] at hu
        exact hu
      obtain ⟨ds, h1, h2, h3, h4⟩ :=
        ih (u / 10) (Char.ofNat ('0'.toNat + u % 10) :: buf) hfuel hdiv
      have hk : u % 10 < 10 := Nat.mod_lt _ (by norm_num)
      have hd := digitChar_toNat (u % 10) hk
      refine ⟨ds ++ [Char.ofNat ('0'.toNat + u % 10)], by rw [h1]; simp, by simp, ?_, ?_⟩
      · intro c hc
        rcases List.mem_append.mp hc with hc | hc
        · exact h3 c hc
        · simp only [List.mem_singleton] at hc
          subst hc
          unfold isDigit
          rw [hd]
          have h0 : '0'.toNat = 48 := rfl
          have h9 : '9'.toNat = 57 := rfl
          omega
      · intro m
        rw [decimalFrom_append, h4]
        simp only [decimalFrom, List.foldl_cons, List.foldl_nil, hd, List.length_append,
          List.length_singleton]
        have h0 : '0'.toNat = 48 := rfl
        rw [h0, pow_succ]
        have := Nat.div_add_mod u 10
        have e : 48 + u % 10 - 48 = u % 10 := by omega
        rw [e]
        ring_nf
        omega
    · rw [if_neg h10]
      have hk : u < 10 := by omega
      have hd := digitChar_toNat u hk
      refine ⟨[Char.ofNat ('0'.toNat + u)], rfl, by simp, ?_, ?_⟩
      · intro c hc
        simp only [List.mem_singleton] at hc
        subst hc
        unfold isDigit
        rw [hd]
        have h0 : '0'.toNat = 48 := rfl
        have h9 : '9'.toNat = 57 := rfl
        omega
      · intro m
        simp only [decimalFrom, List.foldl_cons, List.foldl_nil, hd, List.length_singleton,
          pow_one]
        have h0 : '0'.toNat = 48 := rfl
        rw [h0]
        omega

theorem fmtUint_spec (n : Nat) (hn : n < 2 ^ 64) :
    validCoordinate (fmtUint n) ∧ decimalValue (fmtUint n) = n ∧ plainField (fmtUint n) := by
  obtain ⟨ds, h1, h2, h3, h4⟩ := fmtUintLoop_spec 20 n [] (by norm_num)
    (lt_trans hn (by norm_num))
  have e : fmtUint n = ds := by unfold fmtUint; rw [h1]; simp
  have hv : decimalValue ds = n := by
    unfold decimalValue; rw [h4]; simp
  rw [e]
  refine ⟨⟨h2, h3, by rw [hv]; exact hn⟩, hv, ?_, ?_, ?_⟩ <;>
  · intro hm
    have := h3 _ hm
    revert this
    decide

theorem loadImageCSV_image_line {bits : Nat} (name path : GoString) (hn : plainField name)
    (hp : plainField path) (hsemi : name.head? ≠ some ';')
    (hcr : path.getLast? ≠ some '\r') :
    loadImageCSV bits (name ++ [','] ++ path ++ ['\n']) = some ⟨[⟨name, path⟩], [], [], none⟩ := by
  have e : name ++ [','] ++ path ++ ['\n'] =
      List.intercalate [','] [name, path] ++ '\n' :: [] := by
    rw [intercalate_cons_cons, intercalate_singleton]; simp
  have hl : List.intercalate [','] [name, path] = name ++ ',' :: path := by
    rw [intercalate_cons_cons, intercalate_singleton]; simp
  have hR := Read_plain_line [name, path] []
    (by
      intro f hf
      simp only [List.mem_cons, List.mem_singleton, List.not_mem_nil, or_false] at hf
      rcases hf with rfl | rfl <;> assumption)
    (by rw [hl]; simp)
    (by
      rw [hl]
      cases name with
      | nil => simp
      | cons x xs => simpa using hsemi)
    (by
      rw [hl, List.getLast?_append_of_ne_nil _ (by simp)]
      cases path with
      | nil => simp
      | cons x xs => rw [List.getLast?_cons_cons]; exact hcr)
  rw [e, loadImageCSV_single _ _ hR]
  simp [processRecord]

theorem loadImageCSV_partialImage_line {bits : Nat} (name path : GoString)
    (a b c d : Nat) (hbits : bits ≤ 64)
    (hn : plainField name) (hp : plainField path) (hsemi : name.head? ≠ some ';')
    (ha : a < 2 ^ bits) (hb : b < 2 ^ bits) (hc : c < 2 ^ bits) (hd : d < 2 ^ bits) :
    loadImageCSV bits (name ++ [','] ++ path ++ [','] ++ fmtUint a ++ [','] ++ fmtUint b ++
        [','] ++ fmtUint c ++ [','] ++ fmtUint d ++ ['\n']) =
      some ⟨[], [{ Name := name, Path := path, ax := a, ay := b, bx := c, by_ := d }], [],
        none⟩ := by
  have hpow : 2 ^ bits ≤ 2 ^ 64 := Nat.pow_le_pow_right (by norm_num) hbits
  obtain ⟨va, ea, pa⟩ := fmtUint_spec a (lt_of_lt_of_le ha hpow)
  obtain ⟨vb, eb, pb⟩ := fmtUint_spec b (lt_of_lt_of_le hb hpow)
  obtain ⟨vc, ec, pc⟩ := fmtUint_spec c (lt_of_lt_of_le hc hpow)
  obtain ⟨vd, ed, pd⟩ := fmtUint_spec d (lt_of_lt_of_le hd hpow)
  have hl : List.intercalate [','] [name, path, fmtUint a, fmtUint b, fmtUint c, fmtUint d] =
      name ++ ',' :: (path ++ ',' :: (fmtUint a ++ ',' :: (fmtUint b ++ ',' ::
        (fmtUint c ++ ',' :: fmtUint d)))) := by
    simp only [intercalate_cons_cons, intercalate_singleton, List.singleton_append]
  have e : name ++ [','] ++ path ++ [','] ++ fmtUint a ++ [','] ++ fmtUint b ++ [','] ++
        fmtUint c ++ [','] ++ fmtUint d ++ ['\n'] =
      List.intercalate [','] [name, path, fmtUint a, fmtUint b, fmtUint c, fmtUint d] ++
        '\n' :: [] := by
    rw [hl]; simp
  have hdne : fmtUint d ≠ [] := vd.1
  have hR := Read_plain_line [name, path, fmtUint a, fmtUint b, fmtUint c, fmtUint d] []
    (by
      intro f hf
      simp only [List.mem_cons, List.mem_singleton, List.not_mem_nil, or_false] at hf
      rcases hf with rfl | rfl | rfl | rfl | rfl | rfl <;> assumption)
    (by rw [hl]; simp)
    (by
      rw [hl]
      cases name with
      | nil => simp
      | cons x xs => simpa using hsemi)
    (by
      have : List.intercalate [','] [name, path, fmtUint a, fmtUint b, fmtUint c, fmtUint d] =
          (name ++ ',' :: (path ++ ',' :: (fmtUint a ++ ',' :: (fmtUint b ++ ',' ::
            (fmtUint c ++ [','])))))  ++ fmtUint d := by
        rw [hl]; simp
      rw [this, List.getLast?_append_of_ne_nil _ hdne]
      apply getLast?_ne_of_not_mem
      intro hm
      have := vd.2.1 _ hm
      revert this
      decide)
  rw [e, loadImageCSV_single _ _ hR, processRecord_partialImage _ _ _ _ _ _ _ va vb vc vd,
    ea, eb, ec, ed, toUint_of_lt ha, toUint_of_lt hb, toUint_of_lt hc, toUint_of_lt hd]
  rfl

/-! ### A quoted field that is never closed -/

theorem quotesDoubled_cons_ne {c : Char} (cs : GoString) (h : c ≠ '"') :
    quotesDoubled (c :: cs) = quotesDoubled cs := by
  rw [quotesDoubled.eq_def]
  simp [h]

theorem quotesDoubled_quote_cons (d : Char) (ds : GoString) :
    quotesDoubled ('"' :: d :: ds) = (decide (d = '"') && quotesDoubled ds) := by
  rw [quotesDoubled.eq_def]
  simp

theorem quotesDoubled_quote {cs : GoString} (h : quotesDoubled ('"' :: cs) = true) :
    ∃ ds, cs = '"' :: ds ∧ quotesDoubled ds = true := by
  cases cs with
  | nil => simp [quotesDoubled] at h
  | cons d ds =>
    rw [quotesDoubled_quote_cons] at h
    simp only [Bool.and_eq_true, decide_eq_true_eq] at h
    exact ⟨ds, by rw [h.1], h.2⟩

theorem quotesDoubled_append_not_mem (l r : GoString) (h : '"' ∉ l) :
    quotesDoubled (l ++ r) = quotesDoubled r := by
  induction l with
  | nil => rfl
  | cons x xs ih =>
    have hx : x ≠ '"' := fun e => h (e ▸ List.mem_cons_self _ _)
    show quotesDoubled (x :: (xs ++ r)) = _
    rw [quotesDoubled_cons_ne _ hx, ih (fun e => h (List.mem_cons_of_mem _ e))]

theorem quotesDoubled_split_aux (n : Nat) (l : GoString) (c : Char) (r : GoString)
    (hn : l.length ≤ n) (hc : c ≠ '"') :
    quotesDoubled (l ++ c :: r) = (quotesDoubled l && quotesDoubled r) := by
  induction n generalizing l with
  | zero =>
    have : l = [] := List.length_eq_zero.mp (by omega)
    subst this
    simp [quotesDoubled_cons_ne _ hc, quotesDoubled]
  | succ n ih =>
    cases l with
    | nil => simp [quotesDoubled_cons_ne _ hc, quotesDoubled]
    | cons x xs =>
      by_cases hx : x = '"'
      · subst hx
        cases xs with
        | nil =>
          show quotesDoubled ('"' :: c :: r) = _
          rw [quotesDoubled_quote_cons]
          simp [hc, quotesDoubled]
        | cons y ys =>
          show quotesDoubled ('"' :: y :: (ys ++ c :: r)) = _
          rw [quotesDoubled_quote_cons, quotesDoubled_quote_cons,
            ih ys (by simp only [List.length_cons] at hn; omega), Bool.and_assoc]
      · show quotesDoubled (x :: (xs ++ c :: r)) = _
        rw [quotesDoubled_cons_ne _ hx, quotesDoubled_cons_ne _ hx,
          ih xs (by simp only [List.length_cons] at hn; omega)]

theorem quotesDoubled_split (l : GoString) (c : Char) (r : GoString) (hc : c ≠ '"') :
    quotesDoubled (l ++ c :: r) = true ↔ quotesDoubled l = true ∧ quotesDoubled r = true := by
  rw [quotesDoubled_split_aux l.length l c r (le_refl _) hc, Bool.and_eq_true]

theorem quotesDoubled_concat (l : GoString) (c : Char) (hc : c ≠ '"') :
    quotesDoubled (l ++ [c]) = true ↔ quotesDoubled l = true := by
  rw [quotesDoubled_split l c [] hc]
  simp [quotesDoubled]

/-- The line without the carriage return `readLine` removes keeps its quotes doubled. -/
theorem quotesDoubled_trim (l : GoString) (h : quotesDoubled l = true) :
    quotesDoubled (if l.getLast? = some '\r' then l.dropLast else l) = true := by
  split
  · rename_i hr
    obtain ⟨ys, rfl⟩ := List.getLast?_eq_some_iff.1 hr
    rw [List.dropLast_concat]
    exact (quotesDoubled_concat ys '\r' (by decide)).1 h
  · exact h

theorem readLine_quotesDoubled (s : GoString) (h : quotesDoubled s = true) :
    quotesDoubled (readLine s).1 = true ∧ quotesDoubled (readLine s).2.2 = true := by
  rcases split_at_nl s with ⟨l, post, hl, rfl⟩ | hs
  · rw [readLine_of_nl l post hl]
    obtain ⟨h1, h2⟩ := (quotesDoubled_split l '\n' post (by decide)).1 h
    exact ⟨(quotesDoubled_concat _ '\n' (by decide)).2 (quotesDoubled_trim l h1), h2⟩
  · by_cases hne : s = []
    · subst hne; rw [readLine_nil]; exact ⟨rfl, rfl⟩
    · rw [readLine_no_nl s hs hne]
      exact ⟨quotesDoubled_trim s h, rfl⟩

theorem parseFields_never_closed (fuel : Nat) (line rest : GoString)
    (fields : List GoString) (buf : GoString) (hl : quotesDoubled line = true)
    (hr : quotesDoubled rest = true) (hf : line.length + rest.length < fuel) :
    parseFields fuel line rest fields (some buf) = some (.error .ErrQuote) := by
  induction fuel generalizing line rest buf with
  | zero => omega
  | succ fuel ih =>
    cases hi : indexByte line '"' with
    | none =>
      rw [parseFields_quoted_eol _ _ _ _ _ hi]
      split
      · obtain ⟨q1, q2⟩ := readLine_quotesDoubled rest hr
        have := readLine_length rest
        exact ih _ _ _ q1 q2 (by omega)
      · rfl
    | some i =>
      obtain ⟨h1, h2, h3⟩ := indexByte_some line '"' i hi
      have hq : quotesDoubled ('"' :: line.drop (i + 1)) = true := by
        rw [← quotesDoubled_append_not_mem (line.take i) _ h1, ← h2]; exact hl
      obtain ⟨ds, hds, hqd⟩ := quotesDoubled_quote hq
      have hd2 : line.drop (i + 2) = ds := by
        have : line.drop (i + 2) = (line.drop (i + 1)).drop 1 := by
          rw [List.drop_drop]
        rw [this, hds]; rfl
      rw [parseFields_quoted_quote _ _ _ _ _ i hi, if_pos (by rw [hds]; rfl), hd2]
      have hlen : ds.length + 1 = (line.drop (i + 1)).length := by rw [hds]; rfl
      simp only [List.length_drop] at hlen
      exact ih _ _ _ hqd hr (by omega)

/-- Trimming the carriage return at the end of a text that goes past an opening quote:
the text up to and including the quote stays. -/
theorem trim_open_quote (p b : GoString) (hb : quotesDoubled b = true) :
    ∃ x, (if (p ++ '"' :: b).getLast? = some '\r' then (p ++ '"' :: b).dropLast
        else p ++ '"' :: b) = p ++ '"' :: x ∧ quotesDoubled x = true := by
  split
  · rename_i hr
    have hbne : b ≠ [] := by
      intro e; subst e
      rw [List.getLast?_append_of_ne_nil _ (by simp)] at hr
      simp at hr
    have hr' : b.getLast? = some '\r' := by
      have e : p ++ '"' :: b = (p ++ ['"']) ++ b := by simp
      rw [e, List.getLast?_append_of_ne_nil _ hbne] at hr
      exact hr
    obtain ⟨ys, rfl⟩ := List.getLast?_eq_some_iff.1 hr'
    refine ⟨ys, ?_, (quotesDoubled_concat ys '\r' (by decide)).1 hb⟩
    have e : p ++ '"' :: (ys ++ ['\r']) = (p ++ '"' :: ys) ++ ['\r'] := by simp
    rw [e, List.dropLast_concat]
  · exact ⟨b, rfl, hb⟩

theorem readLine_open_quote (p body : GoString) (hp : '\n' ∉ p)
    (hb : quotesDoubled body = true) :
    ∃ x, (readLine (p ++ '"' :: body)).1 = p ++ '"' :: x ∧
      (readLine (p ++ '"' :: body)).2.1 = false ∧ quotesDoubled x = true ∧
      quotesDoubled (readLine (p ++ '"' :: body)).2.2 = true := by
  rcases split_at_nl body with ⟨b, post, hbn, rfl⟩ | hs
  · obtain ⟨q1, q2⟩ := (quotesDoubled_split b '\n' post (by decide)).1 hb
    have e : p ++ '"' :: (b ++ '\n' :: post) = (p ++ '"' :: b) ++ '\n' :: post := by simp
    have hn : '\n' ∉ p ++ '"' :: b := by
      simp only [List.mem_append, List.mem_cons, not_or]
      exact ⟨hp, by decide, hbn⟩
    rw [e, readLine_of_nl _ post hn]
    obtain ⟨x, hx, hqx⟩ := trim_open_quote p b q1
    refine ⟨x ++ ['\n'], ?_, rfl, (quotesDoubled_concat x '\n' (by decide)).2 hqx, q2⟩
    simp only
    rw [hx]
    simp
  · have hn : '\n' ∉ p ++ '"' :: body := by
      simp only [List.mem_append, List.mem_cons, not_or]
      exact ⟨hp, by decide, hs⟩
    rw [readLine_no_nl _ hn (by simp)]
    obtain ⟨x, hx, hqx⟩ := trim_open_quote p body hb
    exact ⟨x, hx, rfl, hqx, rfl⟩

theorem parseFields_openFields (fs : List GoString) (hfs : ∀ f ∈ fs, plainField f)
    (fuel : Nat) (line rest : GoString) (fields : List GoString) :
    parseFields (fuel + fs.length) (openFields fs ++ line) rest fields none =
      parseFields fuel line rest (fields ++ fs) none := by
  induction fs generalizing fields with
  | nil => simp [openFields]
  | cons f gs ih =>
    have e : openFields (f :: gs) ++ line = f ++ ',' :: (openFields gs ++ line) := by
      simp [openFields]
    have e2 : fuel + (f :: gs).length = (fuel + gs.length) + 1 := by
      simp only [List.length_cons]; omega
    rw [e, e2, parseFields_plain_comma _ f _ rest fields (hfs f (List.mem_cons_self _ _)),
      ih (fun x hx => hfs x (List.mem_cons_of_mem _ hx))]
    simp

theorem not_mem_openFields (fs : List GoString) (c : Char) (hc : c ≠ ',')
    (hfs : ∀ f ∈ fs, c ∉ f) : c ∉ openFields fs := by
  induction fs with
  | nil => simp [openFields]
  | cons f gs ih =>
    simp only [openFields, List.mem_append, List.mem_cons, not_or]
    exact ⟨hfs f (List.mem_cons_self _ _), hc, ih (fun x hx => hfs x (List.mem_cons_of_mem _ hx))⟩

theorem length_le_openFields (fs : List GoString) : fs.length ≤ (openFields fs).length := by
  induction fs with
  | nil => simp
  | cons f gs ih =>
    simp only [openFields, List.length_cons, List.length_append]
    omega

theorem lengthNL_le_one (l : GoString) : lengthNL l ≤ 1 := by
  unfold lengthNL; split <;> omega

/-- A quoted field opened on a line after the fields `fs` and never closed:
`Read` fails with `ErrQuote`. -/
theorem Read_open_quote (fs : List GoString) (body : GoString)
    (hfs : ∀ f ∈ fs, plainField f) (hsemi : (openFields fs).head? ≠ some ';')
    (hb : quotesDoubled body = true) :
    Read (openFields fs ++ '"' :: body) = some (.error .ErrQuote) := by
  have hp : '\n' ∉ openFields fs :=
    not_mem_openFields fs '\n' (by decide) (fun f hf => (hfs f hf).2.2)
  obtain ⟨x, hx, he, hqx, hqr⟩ := readLine_open_quote (openFields fs) body hp hb
  have hh : (openFields fs ++ '"' :: x).head? ≠ some ';' := by
    cases hof : openFields fs with
    | nil => simp
    | cons a as => rw [hof] at hsemi; simpa using hsemi
  have hblank : ¬ ((openFields fs ++ '"' :: x).length = lengthNL (openFields fs ++ '"' :: x)) := by
    intro e
    have h1 := lengthNL_le_one (openFields fs ++ '"' :: x)
    have hlen : (openFields fs ++ '"' :: x).length = (openFields fs).length + x.length + 1 := by
      simp only [List.length_append, List.length_cons]; omega
    have hx0 : x = [] := List.length_eq_zero.mp (by omega)
    have hf0 : openFields fs = [] := List.length_eq_zero.mp (by omega)
    rw [hx0, hf0] at e
    simp [lengthNL] at e
  have hS : skipLines ((openFields fs ++ '"' :: body).length + 1) (openFields fs ++ '"' :: body) =
      some (openFields fs ++ '"' :: x, false, (readLine (openFields fs ++ '"' :: body)).2.2) := by
    rw [skipLines_succ, hx, he, if_neg hh, if_neg (fun h => hblank h.2)]
  unfold Read
  rw [hS]
  simp only [Bool.false_eq_true, if_false]
  have hfl := length_le_openFields fs
  obtain ⟨k, hk⟩ : ∃ k, (openFields fs ++ '"' :: x).length +
      (readLine (openFields fs ++ '"' :: body)).2.2.length + 1 = (k + 1) + fs.length ∧
      x.length + (readLine (openFields fs ++ '"' :: body)).2.2.length < k := by
    refine ⟨(openFields fs).length - fs.length + x.length +
      (readLine (openFields fs ++ '"' :: body)).2.2.length + 1, ?_, ?_⟩
    · simp only [List.length_append, List.length_cons]; omega
    · omega
  rw [hk.1, parseFields_openFields fs hfs, parseFields_start_quote _ _ _ _ (by rfl)]
  exact parseFields_never_closed k _ _ _ _ hqx hqr (by simpa using hk.2)

theorem records_of_Read_error (input : GoString) (e : ParseError)
    (h : Read input = some (.error e)) : records input = some (.error e) := by
  unfold records
  rw [readAll_succ, h]

theorem loadImageCSV_error_after {bits : Nat} (pre tail : GoString) (e : ParseError)
    (hc : endsLines pre) (hp : parsesCleanly bits pre) (h : Read tail = some (.error e)) :
    loadImageCSV bits (pre ++ tail) = some ⟨[], [], [], some e⟩ := by
  obtain ⟨rs, hrs⟩ := (parsesCleanly_iff pre).1 hp
  rw [loadImageCSV_eq, records_append pre tail rs hc hrs, records_of_Read_error tail e h]
  rfl

/-! ### The error of `ParseUint` and of `parseUintN` -/

theorem parseUintLoop_error (s0 s : GoString) (n : Nat) (e : NumError)
    (h : parseUintLoop s0 s n = .error e) :
    e.Func = "ParseUint".toList ∧ e.Num = s0 := by
  induction s generalizing n with
  | nil => simp [parseUintLoop] at h
  | cons c cs ih =>
    rw [parseUintLoop] at h
    split at h
    · simp only [Except.error.injEq] at h
      subst h
      exact ⟨rfl, rfl⟩
    · simp only at h
      split at h
      · simp only [Except.error.injEq] at h
        subst h
        exact ⟨rfl, rfl⟩
      · split at h
        · simp only [Except.error.injEq] at h
          subst h
          exact ⟨rfl, rfl⟩
        · split at h
          · simp only [Except.error.injEq] at h
            subst h
            exact ⟨rfl, rfl⟩
          · exact ih _ h

theorem ParseUint_error (s : GoString) (e : NumError) (h : ParseUint s = .error e) :
    e.Func = "ParseUint".toList ∧ e.Num = s ∧ ¬ validCoordinate s := by
  have hv : ¬ validCoordinate s := by
    intro hv
    rw [ParseUint_of_valid hv] at h
    cases h
  unfold ParseUint at h
  split at h
  · simp only [Except.error.injEq] at h
    subst h
    exact ⟨rfl, rfl, hv⟩
  · obtain ⟨h1, h2⟩ := parseUintLoop_error s s 0 e h
    exact ⟨h1, h2, hv⟩

theorem parseUintNLoop_ok_inv {bits : Nat} (args : List GoString) (results rs : List Nat)
    (h : parseUintNLoop bits args results = .ok rs) :
    (∀ a ∈ args, validCoordinate a) ∧
      rs = results ++ args.map (fun a => toUint bits (decimalValue a)) := by
  induction args generalizing results with
  | nil =>
    simp only [parseUintNLoop, Except.ok.injEq] at h
    subst h
    simp
  | cons a as ih =>
    rw [parseUintNLoop] at h
    cases hp : ParseUint a with
    | error e => rw [hp] at h; cases h
    | ok v =>
      rw [hp] at h
      simp only at h
      obtain ⟨hva, hv⟩ := (ParseUint_ok_iff a v).mp hp
      obtain ⟨h1, h2⟩ := ih _ h
      refine ⟨?_, ?_⟩
      · intro x hx
        rcases List.mem_cons.mp hx with rfl | hx
        · exact hva
        · exact h1 x hx
      · rw [h2, hv]
        simp

theorem parseUintNLoop_leftmost {bits : Nat} (pre post : List GoString) (a : GoString)
    (results : List Nat) (e : NumError) (hpre : ∀ x ∈ pre, validCoordinate x)
    (ha : ParseUint a = .error e) :
    parseUintNLoop bits (pre ++ a :: post) results = .error e := by
  induction pre generalizing results with
  | nil => simp [parseUintNLoop, ha]
  | cons x xs ih =>
    have hx := hpre x (List.mem_cons_self _ _)
    show parseUintNLoop bits (x :: (xs ++ a :: post)) results = _
    rw [parseUintNLoop, ParseUint_of_valid hx]
    exact ih _ (fun y hy => hpre y (List.mem_cons_of_mem _ hy))

theorem parseUintNLoop_error {bits : Nat} (args : List GoString) (results : List Nat) (e : NumError)
    (h : parseUintNLoop bits args results = .error e) :
    e.Func = "ParseUint".toList ∧ e.Num ∈ args ∧ ¬ validCoordinate e.Num := by
  induction args generalizing results with
  | nil => simp [parseUintNLoop] at h
  | cons a as ih =>
    rw [parseUintNLoop] at h
    cases hp : ParseUint a with
    | error e' =>
      rw [hp] at h
      simp only [Except.error.injEq] at h
      subst h
      obtain ⟨h1, h2, h3⟩ := ParseUint_error a _ hp
      exact ⟨h1, by rw [h2]; exact List.mem_cons_self _ _, by rw [h2]; exact h3⟩
    | ok v =>
      rw [hp] at h
      obtain ⟨h1, h2, h3⟩ := ih _ h
      exact ⟨h1, List.mem_cons_of_mem _ h2, h3⟩

/-! ### Counting the outputs -/

theorem record_trichotomy {bits : Nat} (rec : List GoString) :
    (isFull rec ∧ ¬ isPartial rec ∧ warningOf bits rec = none) ∨
      (¬ isFull rec ∧ isPartial rec ∧ warningOf bits rec = none) ∨
      (¬ isFull rec ∧ ¬ isPartial rec ∧ (warningOf bits rec).isSome = true) := by
  have hw := @warningOf_isSome_iff bits rec
  by_cases hF : isFull rec
  · left
    have hP : ¬ isPartial rec := by
      intro hP
      unfold isFull at hF
      have := hP.1
      omega
    refine ⟨hF, hP, ?_⟩
    cases h : warningOf bits rec with
    | none => rfl
    | some w => rw [h] at hw; simp [hF] at hw
  · right
    by_cases hP : isPartial rec
    · left
      refine ⟨hF, hP, ?_⟩
      cases h : warningOf bits rec with
      | none => rfl
      | some w => rw [h] at hw; simp [hP] at hw
    · right
      exact ⟨hF, hP, hw.2 ⟨hF, hP⟩⟩

theorem outputs_count {bits : Nat} (rs : List (List GoString)) :
    (rs.filter (fun rec => decide (isFull rec))).length +
        (rs.filter (fun rec => decide (isPartial rec))).length +
        (rs.filterMap (warningOf bits)).length = rs.length := by
  induction rs with
  | nil => rfl
  | cons r rs ih =>
    rcases @record_trichotomy bits r with ⟨h1, h2, h3⟩ | ⟨h1, h2, h3⟩ | ⟨h1, h2, h3⟩
    · simp only [List.filter_cons, h1, h2, decide_True, decide_False, if_true,
        Bool.false_eq_true, if_false, List.filterMap_cons, h3, List.length_cons]
      omega
    · simp only [List.filter_cons, h1, h2, decide_True, decide_False, if_true,
        Bool.false_eq_true, if_false, List.filterMap_cons, h3, List.length_cons]
      omega
    · obtain ⟨w, hw⟩ := Option.isSome_iff_exists.mp h3
      simp only [List.filter_cons, h1, h2, decide_False, Bool.false_eq_true, if_false,
        List.filterMap_cons, hw, List.length_cons]
      omega

theorem list_length_four {α : Type} (l : List α) (h : l.length = 4) :
    ∃ a b c d, l = [a, b, c, d] := by
  match l, h with
  | [a, b, c, d], _ => exact ⟨a, b, c, d, rfl⟩

theorem processRecord_coordinate_error {bits : Nat} (acc : Acc) (name path : GoString)
    (coords : List GoString) (e : NumError) (hlen : coords.length = 4)
    (he : parseUintN bits coords = .error e) :
    processRecord bits acc (name :: path :: coords) =
      ⟨acc.images, acc.partialImages, acc.warnings ++ [Warning.wrapped e]⟩ := by
  obtain ⟨a, b, c, d, rfl⟩ := list_length_four coords hlen
  simp [processRecord, he]

theorem loadLoop_error {bits : Nat} (fuel : Nat) (input : GoString) (acc : Acc) (e : ParseError)
    (h : Read input = some (.error e)) :
    loadLoop bits (fuel + 1) input acc = some ⟨[], [], [], some e⟩ := by
  simp [loadLoop, h]

/-! ### Lines that begin with commas -/

theorem intercalate_replicate_nil (k : Nat) (x : GoString) :
    List.intercalate [','] (List.replicate k [] ++ [x]) = List.replicate k ',' ++ x := by
  induction k with
  | zero => simp [intercalate_singleton]
  | succ k ih =>
    cases k with
    | zero =>
      show List.intercalate [','] ([] :: [x]) = _
      rw [intercalate_cons_cons, intercalate_singleton]
      rfl
    | succ k =>
      have e : List.replicate (k + 1 + 1) ([] : GoString) ++ [x] =
          [] :: [] :: (List.replicate k [] ++ [x]) := by
        simp [List.replicate_succ]
      have e' : List.replicate (k + 1) ([] : GoString) ++ [x] =
          [] :: (List.replicate k [] ++ [x]) := by
        simp [List.replicate_succ]
      rw [e, intercalate_cons_cons, ← e', ih]
      simp [List.replicate_succ]

/-- A line of one or more commas followed by a text that starts with `;` is read as a
record, with an empty field before each comma: the `;` is not at the start of the line. -/
theorem Read_leading_commas (k : Nat) (c post : GoString) (hc : plainField c)
    (hcr : c.getLast? ≠ some '\r') :
    Read (List.replicate (k + 1) ',' ++ ';' :: c ++ '\n' :: post) =
      some (.record (List.replicate (k + 1) [] ++ [';' :: c]) post) := by
  have hI := intercalate_replicate_nil (k + 1) (';' :: c)
  have hp : plainField (';' :: c) := by
    unfold plainField at hc ⊢
    simp only [List.mem_cons, not_or]
    exact ⟨⟨by decide, hc.1⟩, ⟨by decide, hc.2.1⟩, ⟨by decide, hc.2.2⟩⟩
  have hR := Read_plain_line (List.replicate (k + 1) [] ++ [';' :: c]) post
    (by
      intro f hf
      rcases List.mem_append.mp hf with hf | hf
      · rw [List.eq_of_mem_replicate hf]
        exact ⟨by simp, by simp, by simp⟩
      · rw [List.mem_singleton.mp hf]; exact hp)
    (by rw [hI]; simp [List.replicate_succ])
    (by rw [hI]; simp [List.replicate_succ])
    (by
      rw [hI, List.getLast?_append_of_ne_nil _ (by simp)]
      cases c with
      | nil => simp
      | cons x xs => rw [List.getLast?_cons_cons]; exact hcr)
  rw [hI] at hR
  simpa using hR

/-! ### What a warning holds -/

theorem warningOf_some {bits : Nat} (rec : List GoString) (w : Warning) (h : warningOf bits rec = some w) :
    (rec.length = 6 ∧ ∃ e, w = .wrapped e ∧ e.Func = "ParseUint".toList ∧
        e.Num ∈ rec.drop 2 ∧ ¬ validCoordinate e.Num) ∨
      (rec.length ≠ 2 ∧ rec.length ≠ 6 ∧ w = .plain (fieldCountMessage rec) ∧
        ∀ f ∈ rec, f <:+: fieldCountMessage rec) := by
  unfold warningOf at h
  split at h
  · cases h
  · rename_i h2
    split at h
    · rename_i h6
      left
      obtain ⟨n, p, a, b, c, d, rfl⟩ := list_length_six rec h6
      split at h
      · rename_i err he
        simp only [Option.some.injEq] at h
        subst h
        obtain ⟨h1, h2, h3⟩ := parseUintNLoop_error _ [] err he
        exact ⟨rfl, err, rfl, h1, by simpa using h2, h3⟩
      · cases h
    · rename_i h6
      right
      simp only [Option.some.injEq] at h
      subst h
      exact ⟨h2, h6, rfl, fun f hf => infix_fieldCountMessage rec f hf⟩

theorem processRecord_warnings_name_free {bits : Nat} (acc : Acc) (name path name' path' : GoString)
    (a b c d : GoString) :
    (processRecord bits acc [name, path, a, b, c, d]).warnings =
      (processRecord bits acc [name', path', a, b, c, d]).warnings := by
  by_cases hv : validCoordinate a ∧ validCoordinate b ∧ validCoordinate c ∧
      validCoordinate d
  · rw [processRecord_partialImage acc name path a b c d hv.1 hv.2.1 hv.2.2.1 hv.2.2.2,
      processRecord_partialImage acc name' path' a b c d hv.1 hv.2.1 hv.2.2.1 hv.2.2.2]
  · obtain ⟨e, he, hp⟩ := processRecord_badCoordinate acc name path a b c d hv
    obtain ⟨e', he', hp'⟩ := processRecord_badCoordinate acc name' path' a b c d hv
    rw [he] at he'
    simp only [Except.error.injEq] at he'
    subst he'
    rw [hp, hp']

/-! ### Quoted fields -/

theorem readLine_no_cr (s : GoString) (hcr : '\r' ∉ s) (hne : s ≠ []) :
    readLine s = ((readSlice s).1, false, (readSlice s).2) := by
  rcases split_at_nl s with ⟨l, post, hl, rfl⟩ | hs
  · have hlr : l.getLast? ≠ some '\r' :=
      getLast?_ne_of_not_mem (fun e => hcr (List.mem_append_left _ e))
    rw [readLine_of_nl l post hl, readSlice_of_nl l post hl, if_neg hlr]
  · have hlr : s.getLast? ≠ some '\r' := getLast?_ne_of_not_mem hcr
    rw [readLine_no_nl s hs hne, readSlice_no_nl s hs, if_neg hlr]

theorem readSlice_cons_ne (c : Char) (s : GoString) (hc : c ≠ '\n') :
    readSlice (c :: s) = (c :: (readSlice s).1, (readSlice s).2) := by
  rw [readSlice, if_neg hc]

theorem readSlice_cons_nl (s : GoString) : readSlice ('\n' :: s) = (['\n'], s) := by
  rw [readSlice, if_pos rfl]

theorem not_mem_escapeQuotes (t : GoString) (c : Char) (hc : c ≠ '"') (h : c ∉ t) :
    c ∉ escapeQuotes t := by
  induction t with
  | nil => simp [escapeQuotes]
  | cons x xs ih =>
    have hx : c ≠ x := fun e => h (e ▸ List.mem_cons_self _ _)
    have hxs := ih (fun e => h (List.mem_cons_of_mem _ e))
    unfold escapeQuotes
    split
    · simp only [List.mem_cons, not_or]
      exact ⟨hc, hc, hxs⟩
    · simp only [List.mem_cons, not_or]
      exact ⟨hx, hxs⟩

/-- Inside a quoted field, a character that is not a quote and is not the last of its
line goes to the field as it is. -/
theorem parseFields_quoted_shift (fuel : Nat) (c : Char) (l rest buf : GoString)
    (fields : List GoString) (hc : c ≠ '"') (hl : l ≠ []) :
    parseFields fuel (c :: l) rest fields (some buf) =
      parseFields fuel l rest fields (some (buf ++ [c])) := by
  cases fuel with
  | zero => rfl
  | succ f =>
    have hlen : l.length > 0 := List.length_pos.mpr hl
    cases hi : indexByte l '"' with
    | none =>
      have hi' : indexByte (c :: l) '"' = none := by
        rw [indexByte, if_neg hc, hi]; rfl
      rw [parseFields_quoted_eol _ _ _ _ _ hi', parseFields_quoted_eol _ _ _ _ _ hi,
        if_pos (by simp), if_pos hlen]
      simp
    | some i =>
      have hi' : indexByte (c :: l) '"' = some (i + 1) := by
        rw [indexByte, if_neg hc, hi]; rfl
      rw [parseFields_quoted_quote _ _ _ _ _ _ hi', parseFields_quoted_quote _ _ _ _ _ _ hi]
      simp only [List.drop_succ_cons, List.take_succ_cons, List.append_assoc,
        List.singleton_append]

theorem parseFields_quoted_text (t : GoString) (ht : '\r' ∉ t) (tail : GoString)
    (htail : '\r' ∉ tail) (fields : List GoString) (buf : GoString) (fuel : Nat)
    (hf : (escapeQuotes t ++ '"' :: tail).length < fuel) :
    ∃ f', ('"' :: tail).length < f' ∧
      parseFields fuel (readSlice (escapeQuotes t ++ '"' :: tail)).1
          (readSlice (escapeQuotes t ++ '"' :: tail)).2 fields (some buf) =
        parseFields f' (readSlice ('"' :: tail)).1 (readSlice ('"' :: tail)).2 fields
          (some (buf ++ t)) := by
  induction t generalizing buf fuel with
  | nil => exact ⟨fuel, by simpa [escapeQuotes] using hf, by simp [escapeQuotes]⟩
  | cons c t ih =>
    have ht' : '\r' ∉ t := fun e => ht (List.mem_cons_of_mem _ e)
    have hXne : escapeQuotes t ++ '"' :: tail ≠ [] := by simp
    by_cases hq : c = '"'
    · subst hq
      have eX : escapeQuotes ('"' :: t) ++ '"' :: tail =
          '"' :: '"' :: (escapeQuotes t ++ '"' :: tail) := by
        simp [escapeQuotes]
      rw [eX] at hf ⊢
      cases fuel with
      | zero => omega
      | succ f =>
        rw [readSlice_cons_ne _ _ (by decide), readSlice_cons_ne _ _ (by decide)]
        simp only
        rw [parseFields_quoted_quote _ _ _ _ _ 0 (by rfl), if_pos (by rfl)]
        simp only [List.length_cons] at hf
        obtain ⟨f', h1, h2⟩ := ih ht' (buf ++ [] ++ ['"']) f (by omega)
        refine ⟨f', h1, ?_⟩
        simp only [List.take_zero, List.append_nil, List.drop_succ_cons, List.drop_zero] at h2 ⊢
        rw [h2]
        simp
    · by_cases hn : c = '\n'
      · subst hn
        have eX : escapeQuotes ('\n' :: t) ++ '"' :: tail =
            '\n' :: (escapeQuotes t ++ '"' :: tail) := by
          simp [escapeQuotes]
        rw [eX] at hf ⊢
        cases fuel with
        | zero => omega
        | succ f =>
          have hcr : '\r' ∉ escapeQuotes t ++ '"' :: tail := by
            simp only [List.mem_append, List.mem_cons, not_or]
            exact ⟨not_mem_escapeQuotes t '\r' (by decide) ht', by decide, htail⟩
          rw [readSlice_cons_nl]
          simp only
          rw [parseFields_quoted_eol _ _ _ _ _ (by rfl), if_pos (by simp),
            readLine_no_cr _ hcr hXne]
          simp only [List.length_cons] at hf
          obtain ⟨f', h1, h2⟩ := ih ht' (buf ++ ['\n']) f (by omega)
          refine ⟨f', h1, ?_⟩
          rw [h2]
          simp
      · have eX : escapeQuotes (c :: t) ++ '"' :: tail =
            c :: (escapeQuotes t ++ '"' :: tail) := by
          simp [escapeQuotes, hq]
        rw [eX] at hf ⊢
        rw [readSlice_cons_ne _ _ hn]
        simp only
        rw [parseFields_quoted_shift _ _ _ _ _ _ hq (readSlice_fst_ne_nil hXne)]
        simp only [List.length_cons] at hf
        obtain ⟨f', h1, h2⟩ := ih ht' (buf ++ [c]) fuel (by omega)
        refine ⟨f', h1, ?_⟩
        rw [h2]
        simp

theorem parseFields_close_comma (f : Nat) (tail buf : GoString) (fields : List GoString) :
    parseFields (f + 1) (readSlice ('"' :: ',' :: tail)).1 (readSlice ('"' :: ',' :: tail)).2
        fields (some buf) =
      parseFields f (readSlice tail).1 (readSlice tail).2 (fields ++ [buf]) none := by
  rw [readSlice_cons_ne _ _ (by decide), readSlice_cons_ne _ _ (by decide)]
  simp only
  rw [parseFields_quoted_quote _ _ _ _ _ 0 (by rfl), if_neg (by simp), if_pos (by rfl)]
  simp

theorem parseFields_close_nl (f : Nat) (post buf : GoString) (fields : List GoString) :
    parseFields (f + 1) (readSlice ('"' :: '\n' :: post)).1
        (readSlice ('"' :: '\n' :: post)).2 fields (some buf) =
      some (.record (fields ++ [buf]) post) := by
  rw [readSlice_cons_ne _ _ (by decide), readSlice_cons_nl]
  simp only
  rw [parseFields_quoted_quote _ _ _ _ _ 0 (by rfl), if_neg (by simp), if_neg (by simp),
    if_pos (by simp [lengthNL])]
  simp

/-- A field in quoted form at the start of a field, with another field after it. -/
theorem parseFields_quoteField_comma (t tail : GoString) (ht : '\r' ∉ t)
    (htail : '\r' ∉ tail) (fields : List GoString) (fuel : Nat)
    (hf : (quoteField t ++ ',' :: tail).length < fuel) :
    ∃ f', tail.length < f' ∧
      parseFields fuel (readSlice (quoteField t ++ ',' :: tail)).1
          (readSlice (quoteField t ++ ',' :: tail)).2 fields none =
        parseFields f' (readSlice tail).1 (readSlice tail).2 (fields ++ [t]) none := by
  have e : quoteField t ++ ',' :: tail = '"' :: (escapeQuotes t ++ '"' :: ',' :: tail) := by
    simp [quoteField]
  rw [e] at hf ⊢
  cases fuel with
  | zero => omega
  | succ f =>
    simp only [List.length_cons] at hf
    rw [readSlice_cons_ne _ _ (by decide)]
    simp only
    rw [parseFields_start_quote _ _ _ _ (by rfl)]
    simp only [List.drop_succ_cons, List.drop_zero]
    obtain ⟨f', h1, h2⟩ := parseFields_quoted_text t ht (',' :: tail)
      (by simp only [List.mem_cons, not_or]; exact ⟨by decide, htail⟩) fields [] f
      (by omega)
    cases f' with
    | zero => omega
    | succ g =>
      simp only [List.length_cons] at h1
      refine ⟨g, by omega, ?_⟩
      rw [h2, parseFields_close_comma]
      simp

/-- A field in quoted form at the start of a field, the last of its line. -/
theorem parseFields_quoteField_nl (t post : GoString) (ht : '\r' ∉ t)
    (hpost : '\r' ∉ post) (fields : List GoString) (fuel : Nat)
    (hf : (quoteField t ++ '\n' :: post).length < fuel) :
    parseFields fuel (readSlice (quoteField t ++ '\n' :: post)).1
        (readSlice (quoteField t ++ '\n' :: post)).2 fields none =
      some (.record (fields ++ [t]) post) := by
  have e : quoteField t ++ '\n' :: post = '"' :: (escapeQuotes t ++ '"' :: '\n' :: post) := by
    simp [quoteField]
  rw [e] at hf ⊢
  cases fuel with
  | zero => omega
  | succ f =>
    simp only [List.length_cons] at hf
    rw [readSlice_cons_ne _ _ (by decide)]
    simp only
    rw [parseFields_start_quote _ _ _ _ (by rfl)]
    simp only [List.drop_succ_cons, List.drop_zero]
    obtain ⟨f', h1, h2⟩ := parseFields_quoted_text t ht ('\n' :: post)
      (by simp only [List.mem_cons, not_or]; exact ⟨by decide, hpost⟩) fields [] f
      (by omega)
    cases f' with
    | zero => omega
    | succ g =>
      rw [h2, parseFields_close_nl]
      simp

theorem Read_quotedImageLine (name path : GoString) (hn : '\r' ∉ name)
    (hp : '\r' ∉ path) :
    Read (quotedImageLine name path) = some (.record [name, path] []) := by
  have e : quotedImageLine name path =
      quoteField name ++ ',' :: (quoteField path ++ '\n' :: []) := by
    simp [quotedImageLine]
  have hqp : '\r' ∉ quoteField path ++ '\n' :: [] := by
    simp only [quoteField, List.cons_append, List.mem_cons, List.mem_append,
      List.mem_singleton, List.not_mem_nil, not_or, or_false]
    exact ⟨by decide, ⟨not_mem_escapeQuotes path '\r' (by decide) hp, by decide⟩, by decide⟩
  have hcr : '\r' ∉ quotedImageLine name path := by
    rw [e]
    simp only [quoteField, List.cons_append, List.mem_cons, List.mem_append,
      List.mem_singleton, not_or] at hqp ⊢
    exact ⟨by decide, ⟨not_mem_escapeQuotes name '\r' (by decide) hn, by decide⟩,
      by decide, hqp⟩
  have hne : quotedImageLine name path ≠ [] := by rw [e]; simp [quoteField]
  have hRL := readLine_no_cr _ hcr hne
  have hlen := readSlice_length (quotedImageLine name path)
  -- the first line starts with the opening quote and holds more than it
  have hfst : ∃ s, (readSlice (quotedImageLine name path)).1 = '"' :: s ∧ s ≠ [] := by
    have e2 : quotedImageLine name path =
        '"' :: (escapeQuotes name ++ '"' :: ',' :: (quoteField path ++ '\n' :: [])) := by
      rw [e]; simp [quoteField]
    rw [e2, readSlice_cons_ne _ _ (by decide)]
    exact ⟨_, rfl, readSlice_fst_ne_nil (by simp)⟩
  obtain ⟨s, hs, hsne⟩ := hfst
  have hS : skipLines ((quotedImageLine name path).length + 1) (quotedImageLine name path) =
      some ((readSlice (quotedImageLine name path)).1, false,
        (readSlice (quotedImageLine name path)).2) := by
    rw [skipLines_succ, hRL]
    simp only
    have h1 : (readSlice (quotedImageLine name path)).1.head? ≠ some ';' := by
      rw [hs]; simp
    have h2 : ¬ ((readSlice (quotedImageLine name path)).1.length =
        lengthNL (readSlice (quotedImageLine name path)).1) := by
      have := lengthNL_le_one (readSlice (quotedImageLine name path)).1
      have hpos : 0 < s.length := List.length_pos.mpr hsne
      rw [hs] at this ⊢
      simp only [List.length_cons]
      omega
    rw [if_neg h1, if_neg (fun h => h2 h.2)]
  unfold Read
  rw [hS]
  simp only [Bool.false_eq_true, if_false]
  rw [hlen]
  obtain ⟨f', h1, h2⟩ := parseFields_quoteField_comma name (quoteField path ++ '\n' :: [])
    hn hqp [] ((quotedImageLine name path).length + 1) (by rw [e]; omega)
  rw [← e] at h2
  rw [h2, parseFields_quoteField_nl path [] hp (by simp) _ f' h1]
  simp

theorem loadImageCSV_quotedImageLine {bits : Nat} (name path : GoString) (hn : '\r' ∉ name)
    (hp : '\r' ∉ path) :
    loadImageCSV bits (quotedImageLine name path) = some ⟨[⟨name, path⟩], [], [], none⟩ := by
  rw [loadImageCSV_single _ _ (Read_quotedImageLine name path hn hp)]
  simp [processRecord]

/-! ### The states of the `parseField:` loop -/

theorem parseFields_succ (fuel : Nat) (s : FieldState) :
    parseFields (fuel + 1) s.line s.rest s.fields s.quoted =
      match fieldStep s with
      | .inl s' => parseFields fuel s'.line s'.rest s'.fields s'.quoted
      | .inr res => some res := by
  obtain ⟨line, rest, fields, quoted⟩ := s
  cases quoted with
  | none =>
    simp only [fieldStep]
    by_cases hq : line.head? = some '"'
    · rw [parseFields_start_quote _ _ _ _ hq, if_neg (by simpa using hq)]
    · rw [if_pos hq]
      cases hi : indexByte line ',' with
      | none =>
        rw [parseFields_start_last _ _ _ _ hq hi]
        simp only
        split <;> rfl
      | some i =>
        rw [parseFields_start_comma _ _ _ _ i hq hi]
        simp only
        split <;> rfl
  | some buf =>
    simp only [fieldStep]
    cases hi : indexByte line '"' with
    | none =>
      rw [parseFields_quoted_eol _ _ _ _ _ hi]
      simp only
      split <;> rfl
    | some i =>
      rw [parseFields_quoted_quote _ _ _ _ _ i hi]
      simp only
      split
      · rfl
      · split
        · rfl
        · split <;> rfl

theorem fieldStep_measure (s s' : FieldState) (h : fieldStep s = .inl s') :
    s'.line.length + s'.rest.length < s.line.length + s.rest.length := by
  obtain ⟨line, rest, fields, quoted⟩ := s
  cases quoted with
  | none =>
    simp only [fieldStep] at h
    split at h
    · split at h
      · rename_i i hi
        have hlt := (indexByte_some line ',' i hi).2.2
        split at h
        · cases h
        · simp only [Sum.inl.injEq] at h
          subst h
          simp only [List.length_drop]
          omega
      · split at h <;> cases h
    · rename_i hq
      have hne : line ≠ [] := by
        intro e; rw [e] at hq; simp at hq
      have hl : 0 < line.length := List.length_pos.mpr hne
      simp only [Sum.inl.injEq] at h
      subst h
      simp only [List.length_drop]
      omega
  | some buf =>
    simp only [fieldStep] at h
    split at h
    · rename_i i hi
      have hlt := (indexByte_some line '"' i hi).2.2
      split at h
      · simp only [Sum.inl.injEq] at h
        subst h
        simp only [List.length_drop]
        omega
      · split at h
        · simp only [Sum.inl.injEq] at h
          subst h
          simp only [List.length_drop]
          omega
        · split at h <;> cases h
    · split at h
      · rename_i hl
        simp only [Sum.inl.injEq] at h
        subst h
        have := readLine_length rest
        simp only
        omega
      · cases h

theorem fieldRun_parseFields (n : Nat) (s s' : FieldState) (h : fieldRun n s = some s')
    (fuel : Nat) (hf : s.line.length + s.rest.length < fuel) :
    ∃ fuel', s'.line.length + s'.rest.length < fuel' ∧
      parseFields fuel s.line s.rest s.fields s.quoted =
        parseFields fuel' s'.line s'.rest s'.fields s'.quoted := by
  induction n generalizing s fuel with
  | zero =>
    simp only [fieldRun, Option.some.injEq] at h
    subst h
    exact ⟨fuel, hf, rfl⟩
  | succ n ih =>
    rw [fieldRun] at h
    cases hs : fieldStep s with
    | inr res => rw [hs] at h; cases h
    | inl s1 =>
      rw [hs] at h
      simp only at h
      have hm := fieldStep_measure s s1 hs
      cases fuel with
      | zero => omega
      | succ f =>
        obtain ⟨fuel', h1, h2⟩ := ih s1 h f (by omega)
        refine ⟨fuel', h1, ?_⟩
        rw [parseFields_succ, hs]
        exact h2

/-- Once the reader is inside a quoted field that nothing closes, `Read` fails with
`ErrQuote`. -/
theorem Read_unclosedQuote (n : Nat) (input : GoString) (h : unclosedQuoteAfter n input) :
    Read input = some (.error .ErrQuote) := by
  unfold unclosedQuoteAfter at h
  cases hs : fieldStart input with
  | none => rw [hs] at h; simp at h
  | some s =>
    rw [hs] at h
    simp only [Option.some_bind] at h
    cases hr : fieldRun n s with
    | none => rw [hr] at h; simp at h
    | some s' =>
      rw [hr] at h
      simp only at h
      obtain ⟨hq, hl, hrest⟩ := h
      obtain ⟨buf, hbuf⟩ := Option.isSome_iff_exists.mp hq
      unfold fieldStart at hs
      split at hs
      · rename_i line rest hsk
        simp only [Option.some.injEq] at hs
        subst hs
        obtain ⟨fuel', h1, h2⟩ := fieldRun_parseFields n _ s' hr
          (line.length + rest.length + 1) (by simp)
        simp only at h2
        unfold Read
        rw [hsk]
        simp only [Bool.false_eq_true, if_false]
        rw [h2, hbuf]
        exact parseFields_never_closed fuel' _ _ _ buf hl hrest h1
      · cases hs

/-! ## The claims

Every claim is stated for both widths of `uint`: `bits` is 32 or 64 (hypothesis `hbits`,
where the statement evaluates an example), or any width where the width plays no part. -/

/-- C1: a record `[name, path]` delivered by the reader makes the loop append exactly
`Image{name, path}` to `images`, leaving `partialImages` and `warnings` as they are, and
go on with the next record; `"alice,alice.webp\n"` loads as the single image
`{alice, alice.webp}` with no partial image, no warning and no error. -/
theorem C1_two_fields_append_image (bits : Nat) (hbits : bits = 32 ∨ bits = 64)
    (fuel : Nat) (input rest name path : GoString) (acc : Acc)
    (h : Read input = some (.record [name, path] rest)) :
    processRecord bits acc [name, path] =
        ⟨acc.images ++ [⟨name, path⟩], acc.partialImages, acc.warnings⟩ ∧
      loadLoop bits (fuel + 1) input acc =
        loadLoop bits fuel rest ⟨acc.images ++ [⟨name, path⟩], acc.partialImages, acc.warnings⟩ ∧
      loadImageCSV bits "alice,alice.webp\n".toList =
        some ⟨[⟨"alice".toList, "alice.webp".toList⟩], [], [], none⟩ := by
  have hp : processRecord bits acc [name, path] =
      ⟨acc.images ++ [⟨name, path⟩], acc.partialImages, acc.warnings⟩ := by
    simp [processRecord]
  refine ⟨hp, ?_, by rcases hbits with rfl | rfl <;> decide⟩
  rw [loadLoop_record fuel input rest _ acc h, hp]

theorem C1_two_fields_append_image_witness :
    Read "alice,alice.webp\n".toList =
        some (.record ["alice".toList, "alice.webp".toList] []) ∧
      loadLoop 64 1 "alice,alice.webp\n".toList ⟨[], [], []⟩ =
        loadLoop 64 0 [] ⟨[] ++ [⟨"alice".toList, "alice.webp".toList⟩], [], []⟩ :=
  ⟨by decide,
    (C1_two_fields_append_image 64 (Or.inr rfl) 0 "alice,alice.webp\n".toList [] "alice".toList
      "alice.webp".toList ⟨[], [], []⟩ (by decide)).2.1⟩

/-- C2 (as stated, refuted): where `uint` is 32 bits wide, the 6-field record
`crop,crop.webp,4294967296,2,3,4` has four valid coordinates (digits only, value below
`2 ^ 64`), the first of numeric value `4294967296`, yet the `PartialImage` appended has
`ax = 0`: the conversion `uint(n)` of `parseUintN` truncated the value. -/
theorem C2_truncation_counterexample :
    validCoordinate "4294967296".toList ∧ validCoordinate "2".toList ∧
      validCoordinate "3".toList ∧ validCoordinate "4".toList ∧
      decimalValue "4294967296".toList = 4294967296 ∧
      loadImageCSV 32 "crop,crop.webp,4294967296,2,3,4\n".toList =
        some ⟨[], [{ Name := "crop".toList, Path := "crop.webp".toList, ax := 0, ay := 2,
                     bx := 3, by_ := 4 }], [], none⟩ := by
  decide

/-- C2 (amended): on either width of `uint` (32 or 64 bits), a 6-field record
`[name, path, ax, ay, bx, by]` whose last four fields are valid coordinates (decimal
digits, value below `2 ^ 64`) with values in the range of `uint` (below `2 ^ bits`) makes
the loop append exactly one `PartialImage` with that name and path and the numeric values
of the four fields, with no truncation, and neither an image nor a warning; nothing
relates `ax` to `bx` or `ay` to `by`, e.g. `"crop,crop.webp,9,8,3,4\n"` loads as the
partial image with `9, 8, 3, 4`. -/
theorem C2_six_fields_append_partialImage (bits : Nat) (hbits : bits = 32 ∨ bits = 64)
    (fuel : Nat) (input rest name path a b c d : GoString)
    (acc : Acc) (h : Read input = some (.record [name, path, a, b, c, d] rest))
    (ha : validCoordinate a) (hb : validCoordinate b) (hc : validCoordinate c)
    (hd : validCoordinate d)
    (ra : decimalValue a < 2 ^ bits) (rb : decimalValue b < 2 ^ bits)
    (rc : decimalValue c < 2 ^ bits) (rd : decimalValue d < 2 ^ bits) :
    processRecord bits acc [name, path, a, b, c, d] =
        ⟨acc.images,
          acc.partialImages ++
            [{ Name := name, Path := path, ax := decimalValue a, ay := decimalValue b,
               bx := decimalValue c, by_ := decimalValue d }],
          acc.warnings⟩ ∧
      loadLoop bits (fuel + 1) input acc =
        loadLoop bits fuel rest
          ⟨acc.images,
            acc.partialImages ++
              [{ Name := name, Path := path, ax := decimalValue a, ay := decimalValue b,
                 bx := decimalValue c, by_ := decimalValue d }],
            acc.warnings⟩ ∧
      loadImageCSV bits "crop,crop.webp,9,8,3,4\n".toList =
        some ⟨[], [{ Name := "crop".toList, Path := "crop.webp".toList, ax := 9, ay := 8,
                     bx := 3, by_ := 4 }], [], none⟩ := by
  have hp := @processRecord_partialImage bits acc name path a b c d ha hb hc hd
  rw [toUint_of_lt ra, toUint_of_lt rb, toUint_of_lt rc, toUint_of_lt rd] at hp
  refine ⟨hp, ?_, by rcases hbits with rfl | rfl <;> decide⟩
  rw [loadLoop_record fuel input rest _ acc h, hp]

theorem C2_six_fields_append_partialImage_witness :
    Read "m,m.webp,4294967295,007,3,4\n".toList =
        some (.record ["m".toList, "m.webp".toList, "4294967295".toList,
          "007".toList, "3".toList, "4".toList] []) ∧
      validCoordinate "4294967295".toList ∧ validCoordinate "007".toList ∧
      validCoordinate "3".toList ∧ validCoordinate "4".toList ∧
      decimalValue "4294967295".toList < 2 ^ 32 ∧ decimalValue "007".toList < 2 ^ 32 ∧
      decimalValue "3".toList < 2 ^ 32 ∧ decimalValue "4".toList < 2 ^ 32 ∧
      processRecord 32 ⟨[], [], []⟩ ["m".toList, "m.webp".toList,
          "4294967295".toList, "007".toList, "3".toList, "4".toList] =
        ⟨[], [] ++ [{ Name := "m".toList, Path := "m.webp".toList,
                      ax := decimalValue "4294967295".toList,
                      ay := decimalValue "007".toList, bx := decimalValue "3".toList,
                      by_ := decimalValue "4".toList }], []⟩ :=
  ⟨by decide, by decide, by decide, by decide, by decide, by decide, by decide, by decide,
    by decide,
    (C2_six_fields_append_partialImage 32 (Or.inl rfl) 0
      "m,m.webp,4294967295,007,3,4\n".toList []
      "m".toList "m.webp".toList "4294967295".toList "007".toList "3".toList
      "4".toList ⟨[], [], []⟩ (by decide) (by decide) (by decide) (by decide)
      (by decide) (by decide) (by decide) (by decide) (by decide)).1⟩

/-- C3: a 6-field record in which at least one of the last four fields is not a valid
coordinate makes the loop append exactly one warning (the wrapped error of `parseUintN`),
however many of the four are invalid, and neither an image nor a partial image; the loop
goes on with the next record.  `"bad,bad.webp,x,2,3,4\n"` loads as one warning about the
field `x`. -/
theorem C3_bad_coordinate_one_warning (bits : Nat) (hbits : bits = 32 ∨ bits = 64) (fuel : Nat)
    (input rest name path a b c d : GoString) (acc : Acc)
    (h : Read input = some (.record [name, path, a, b, c, d] rest))
    (hinv : ¬ (validCoordinate a ∧ validCoordinate b ∧ validCoordinate c ∧
      validCoordinate d)) :
    (∃ e, parseUintN bits [a, b, c, d] = .error e ∧
        processRecord bits acc [name, path, a, b, c, d] =
          ⟨acc.images, acc.partialImages, acc.warnings ++ [Warning.wrapped e]⟩ ∧
        loadLoop bits (fuel + 1) input acc =
          loadLoop bits fuel rest
            ⟨acc.images, acc.partialImages, acc.warnings ++ [Warning.wrapped e]⟩) ∧
      loadImageCSV bits "bad,bad.webp,x,2,3,4\n".toList =
        some ⟨[], [], [Warning.wrapped ⟨"ParseUint".toList, "x".toList, .ErrSyntax⟩],
          none⟩ := by
  obtain ⟨e, he, hp⟩ := @processRecord_badCoordinate bits acc name path a b c d hinv
  refine ⟨⟨e, he, hp, ?_⟩, by rcases hbits with rfl | rfl <;> decide⟩
  rw [loadLoop_record fuel input rest _ acc h, hp]

theorem C3_bad_coordinate_one_warning_witness :
    Read "bad,bad.webp,-1,y,,4\nnext,next.webp\n".toList =
        some (.record ["bad".toList, "bad.webp".toList, "-1".toList, "y".toList, [],
          "4".toList] "next,next.webp\n".toList) ∧
      ¬ (validCoordinate "-1".toList ∧ validCoordinate "y".toList ∧ validCoordinate [] ∧
        validCoordinate "4".toList) ∧
      ∃ e, parseUintN 64 ["-1".toList, "y".toList, [], "4".toList] = .error e ∧
        processRecord 64 ⟨[], [], []⟩ ["bad".toList, "bad.webp".toList, "-1".toList,
            "y".toList, [], "4".toList] =
          ⟨[], [], [] ++ [Warning.wrapped e]⟩ ∧
        loadLoop 64 (33 + 1) "bad,bad.webp,-1,y,,4\nnext,next.webp\n".toList ⟨[], [], []⟩ =
          loadLoop 64 33 "next,next.webp\n".toList ⟨[], [], [] ++ [Warning.wrapped e]⟩ :=
  ⟨by decide, by decide,
    (C3_bad_coordinate_one_warning 64 (Or.inr rfl) 33
      "bad,bad.webp,-1,y,,4\nnext,next.webp\n".toList
      "next,next.webp\n".toList "bad".toList "bad.webp".toList "-1".toList "y".toList []
      "4".toList ⟨[], [], []⟩ (by decide) (by decide)).1⟩

/-- C4: a record whose field count is neither 2 nor 6 makes the loop append exactly one
warning, whose message contains the text of every field of the record, and neither an
image nor a partial image; the loop goes on with the next record. -/
theorem C4_field_count_one_warning (bits : Nat) (fuel : Nat) (input rest : GoString)
    (record : List GoString) (acc : Acc)
    (h : Read input = some (.record record rest))
    (h2 : record.length ≠ 2) (h6 : record.length ≠ 6) :
    processRecord bits acc record =
        ⟨acc.images, acc.partialImages,
          acc.warnings ++ [Warning.plain (fieldCountMessage record)]⟩ ∧
      (∀ f ∈ record, f <:+: fieldCountMessage record) ∧
      loadLoop bits (fuel + 1) input acc =
        loadLoop bits fuel rest
          ⟨acc.images, acc.partialImages,
            acc.warnings ++ [Warning.plain (fieldCountMessage record)]⟩ := by
  have hp := @processRecord_fieldCount bits acc record h2 h6
  refine ⟨hp, fun f hf => infix_fieldCountMessage record f hf, ?_⟩
  rw [loadLoop_record fuel input rest _ acc h, hp]

theorem C4_field_count_one_warning_witness :
    Read "a,b,c\nnext,next.webp\n".toList =
        some (.record ["a".toList, "b".toList, "c".toList] "next,next.webp\n".toList) ∧
      ["a".toList, "b".toList, "c".toList].length ≠ 2 ∧
      ["a".toList, "b".toList, "c".toList].length ≠ 6 ∧
      processRecord 64 ⟨[], [], []⟩ ["a".toList, "b".toList, "c".toList] =
        ⟨[], [], [] ++ [Warning.plain (fieldCountMessage
          ["a".toList, "b".toList, "c".toList])]⟩ :=
  ⟨by decide, by decide, by decide,
    (C4_field_count_one_warning 64 0 "a,b,c\nnext,next.webp\n".toList
      "next,next.webp\n".toList ["a".toList, "b".toList, "c".toList] ⟨[], [], []⟩
      (by decide) (by decide) (by decide)).1⟩

/-- C5: when `loadImageCSV` returns without a fatal error, the reader delivered a record
stream `rs` and each output is a subsequence of it in stream order: `images` lists the
2-field records, `partialImages` the 6-field records with four valid coordinates, and
`warnings` one warning for each remaining record and for no other; so records of one kind
keep their relative order however the kinds are interleaved. -/
theorem C5_outputs_in_stream_order (bits : Nat) (r : GoString) (res : Result)
    (h : loadImageCSV bits r = some res) (herr : res.err = none) :
    ∃ rs, records r = some (.ok rs) ∧
      res.images = (rs.filter (fun rec => decide (isFull rec))).map imageOf ∧
      res.partialImages = (rs.filter (fun rec => decide (isPartial rec))).map (partialOf bits) ∧
      res.warnings = rs.filterMap (warningOf bits) ∧
      ∀ rec, (warningOf bits rec).isSome ↔ ¬ isFull rec ∧ ¬ isPartial rec := by
  unfold loadImageCSV at h
  rw [loadLoop_eq_readAll] at h
  unfold records
  cases hA : readAll (r.length + 1) r with
  | none => rw [hA] at h; simp at h
  | some x =>
    rw [hA] at h
    simp only [Option.map_some', Option.some.injEq] at h
    subst h
    cases x with
    | error e => simp [resultOf] at herr
    | ok rs =>
      exact ⟨rs, rfl, by simp [resultOf], by simp [resultOf], by simp [resultOf],
        warningOf_isSome_iff⟩

theorem C5_outputs_in_stream_order_witness :
    loadImageCSV 64 "a,a.webp\np,p.webp,1,2,3,4\nbad\nb,b.webp\nq,q.webp,5,6,7,8\n".toList =
        some ⟨[⟨"a".toList, "a.webp".toList⟩, ⟨"b".toList, "b.webp".toList⟩],
          [{ Name := "p".toList, Path := "p.webp".toList, ax := 1, ay := 2, bx := 3,
             by_ := 4 },
           { Name := "q".toList, Path := "q.webp".toList, ax := 5, ay := 6, bx := 7,
             by_ := 8 }],
          [Warning.plain (fieldCountMessage ["bad".toList])], none⟩ ∧
      ∃ rs,
        records "a,a.webp\np,p.webp,1,2,3,4\nbad\nb,b.webp\nq,q.webp,5,6,7,8\n".toList =
          some (.ok rs) ∧
        [(⟨"a".toList, "a.webp".toList⟩ : Image), ⟨"b".toList, "b.webp".toList⟩] =
          (rs.filter (fun rec => decide (isFull rec))).map imageOf :=
  ⟨by decide,
    (C5_outputs_in_stream_order 64
      "a,a.webp\np,p.webp,1,2,3,4\nbad\nb,b.webp\nq,q.webp,5,6,7,8\n".toList
      ⟨[⟨"a".toList, "a.webp".toList⟩, ⟨"b".toList, "b.webp".toList⟩],
        [{ Name := "p".toList, Path := "p.webp".toList, ax := 1, ay := 2, bx := 3,
           by_ := 4 },
         { Name := "q".toList, Path := "q.webp".toList, ax := 5, ay := 6, bx := 7,
           by_ := 8 }],
        [Warning.plain (fieldCountMessage ["bad".toList])], none⟩
      (by decide) rfl).imp (fun _ hrs => ⟨hrs.1, hrs.2.1⟩)⟩

/-- C7: a double-quoted field that is opened and never closed is a fatal error.  Let
`pre` be any text of complete lines that parses without fatal error, and let the record
that follows it in `input` be such that after `n` steps of the reader's field loop the
reader is inside a quoted field and no quote of the rest of the line and of the unread
input closes it (`unclosedQuoteAfter n input`; the fields before the open quote may be
quoted or not).  Then `Read` fails on `input` with `ErrQuote`, and `loadImageCSV` on
`pre ++ input` returns the error `ErrQuote` with no images, partial images or warnings:
parsing stops there.  In particular this holds on a line that starts with the unquoted
fields `fs` (each followed by its comma; the line is not a comment) when an opening quote
is followed to the end of the stream by a text `body` in which every quote is doubled.
The input `unterminated,"quote` followed by a newline and the input
`"a","never closed` are such inputs. -/
theorem C7_unterminated_quote_fatal (bits : Nat) (hbits : bits = 32 ∨ bits = 64)
    (pre input : GoString) (n : Nat) (hc : endsLines pre) (hp : parsesCleanly bits pre)
    (hq : unclosedQuoteAfter n input) :
    Read input = some (.error .ErrQuote) ∧
      loadImageCSV bits (pre ++ input) = some ⟨[], [], [], some .ErrQuote⟩ ∧
      (∀ (fs : List GoString) (body : GoString), (∀ f ∈ fs, plainField f) →
        (openFields fs).head? ≠ some ';' → quotesDoubled body = true →
        loadImageCSV bits (pre ++ (openFields fs ++ '"' :: body)) =
          some ⟨[], [], [], some .ErrQuote⟩) ∧
      loadImageCSV bits "unterminated,\"quote\n".toList =
        some ⟨[], [], [], some .ErrQuote⟩ ∧
      loadImageCSV bits "\"a\",\"never closed".toList =
        some ⟨[], [], [], some .ErrQuote⟩ :=
  ⟨Read_unclosedQuote n input hq,
    loadImageCSV_error_after pre _ .ErrQuote hc hp (Read_unclosedQuote n input hq),
    fun fs body hfs hsemi hb =>
      loadImageCSV_error_after pre _ .ErrQuote hc hp (Read_open_quote fs body hfs hsemi hb),
    by rcases hbits with rfl | rfl <;> decide,
    by rcases hbits with rfl | rfl <;> decide⟩

theorem C7_unterminated_quote_fatal_witness :
    endsLines "ok,ok.webp\n".toList ∧ parsesCleanly 64 "ok,ok.webp\n".toList ∧
      unclosedQuoteAfter 3 "\"a\",\"never \"\"closed\"\"\nnext,next.webp\n".toList ∧
      loadImageCSV 64 ("ok,ok.webp\n".toList ++
          "\"a\",\"never \"\"closed\"\"\nnext,next.webp\n".toList) =
        some ⟨[], [], [], some .ErrQuote⟩ :=
  ⟨by decide, by decide, by decide,
    (C7_unterminated_quote_fatal 64 (Or.inr rfl) "ok,ok.webp\n".toList
      "\"a\",\"never \"\"closed\"\"\nnext,next.webp\n".toList 3 (by decide) (by decide)
      (by decide)).2.1⟩

/-- C8 (as stated, refuted): the image named `a,b` does not survive the round trip;
`imageToCSVRecord` writes the name unquoted, the reader splits it at the comma and the
3-field record becomes a warning. -/
theorem C8_round_trip_counterexample :
    loadImageCSV 64 (imageToCSVRecord ⟨"a,b".toList, "c.webp".toList⟩) =
        some ⟨[], [],
          [Warning.plain (fieldCountMessage ["a".toList, "b".toList, "c.webp".toList])],
          none⟩ ∧
      loadImageCSV 64 (imageToCSVRecord ⟨"a,b".toList, "c.webp".toList⟩) ≠
        some ⟨[⟨"a,b".toList, "c.webp".toList⟩], [], [], none⟩ := by
  decide

/-- C8 (amended): round trip for values that need no quoting.  For every `Image` whose
name and path contain no comma, double quote or newline, whose name does not begin with
`;` and whose path does not end with a carriage return, `loadImageCSV` applied to
`imageToCSVRecord` returns exactly that image, no partial image, no warning and no error;
for every `PartialImage` whose name and path contain no comma, double quote or newline,
whose name does not begin with `;` and whose coordinates are `uint` values (below
`2 ^ bits`, for `uint` 32 or 64 bits wide), `loadImageCSV` applied to `partialImageToCSVRecord`
  returns exactly that partial image,
no image, no warning and no error. -/
theorem C8_round_trip_unquoted (bits : Nat) (hbits : bits = 32 ∨ bits = 64) :
    (∀ i : Image, plainField i.Name → plainField i.Path → i.Name.head? ≠ some ';' →
        i.Path.getLast? ≠ some '\r' →
        loadImageCSV bits (imageToCSVRecord i) = some ⟨[i], [], [], none⟩) ∧
      (∀ p : PartialImage, plainField p.Name → plainField p.Path →
        p.Name.head? ≠ some ';' → p.ax < 2 ^ bits → p.ay < 2 ^ bits → p.bx < 2 ^ bits →
        p.by_ < 2 ^ bits →
        loadImageCSV bits (partialImageToCSVRecord p) = some ⟨[], [p], [], none⟩) := by
  constructor
  · intro i hn hp hs hc
    unfold imageToCSVRecord
    rw [loadImageCSV_image_line i.Name i.Path hn hp hs hc]
  · intro p hn hp hs ha hb hc hd
    unfold partialImageToCSVRecord
    have hle : bits ≤ 64 := by rcases hbits with rfl | rfl <;> norm_num
    rw [loadImageCSV_partialImage_line p.Name p.Path p.ax p.ay p.bx p.by_ hle hn hp hs ha hb
      hc hd]

theorem C8_round_trip_unquoted_witness :
    (plainField "test image".toList ∧ plainField "test image.webp".toList ∧
        "test image".toList.head? ≠ some ';' ∧
        "test image.webp".toList.getLast? ≠ some '\r' ∧
        loadImageCSV 64 (imageToCSVRecord ⟨"test image".toList, "test image.webp".toList⟩) =
          some ⟨[⟨"test image".toList, "test image.webp".toList⟩], [], [], none⟩) ∧
      (plainField "p".toList ∧ plainField "p.webp\r".toList ∧
        "p".toList.head? ≠ some ';' ∧
        loadImageCSV 64 (partialImageToCSVRecord
            { Name := "p".toList, Path := "p.webp\r".toList, ax := 18446744073709551615,
              ay := 0, bx := 3, by_ := 4 }) =
          some ⟨[], [{ Name := "p".toList, Path := "p.webp\r".toList,
                       ax := 18446744073709551615, ay := 0, bx := 3, by_ := 4 }], [],
            none⟩) :=
  ⟨⟨by decide, by decide, by decide, by decide,
      (C8_round_trip_unquoted 64 (Or.inr rfl)).1 ⟨"test image".toList, "test image.webp".toList⟩
        (by decide)
        (by decide) (by decide) (by decide)⟩,
    ⟨by decide, by decide, by decide,
      (C8_round_trip_unquoted 64 (Or.inr rfl)).2
        { Name := "p".toList, Path := "p.webp\r".toList, ax := 18446744073709551615,
          ay := 0, bx := 3, by_ := 4 }
        (by decide) (by decide) (by decide) (by norm_num) (by norm_num) (by norm_num)
        (by norm_num)⟩⟩

/-- C10: for every input without a double-quote character, whatever the field counts of
its lines, the reader delivers a record stream without error and `loadImageCSV` returns
with a nil error: images, partial images and warnings are the classification of that
stream (records of other field counts become warnings, none is rejected); the empty input
yields three empty sequences. -/
theorem C10_no_quote_no_error (bits : Nat) (hbits : bits = 32 ∨ bits = 64)
    (r : GoString) (hq : '"' ∉ r) :
    (∃ rs, records r = some (.ok rs) ∧
        loadImageCSV bits r =
          some ⟨(rs.filter (fun rec => decide (isFull rec))).map imageOf,
            (rs.filter (fun rec => decide (isPartial rec))).map (partialOf bits),
            rs.filterMap (warningOf bits), none⟩) ∧
      loadImageCSV bits [] = some ⟨[], [], [], none⟩ := by
  refine ⟨?_, by rcases hbits with rfl | rfl <;> decide⟩
  obtain ⟨rs, hrs⟩ := readAll_no_quote (r.length + 1) r hq (by omega)
  refine ⟨rs, hrs, ?_⟩
  rw [loadImageCSV_eq]
  unfold records
  rw [hrs]
  simp [resultOf]

theorem C10_no_quote_no_error_witness :
    '"' ∉ "a\nb,c,d\n,,,,,,\n\nx,y".toList ∧
      ∃ rs, records "a\nb,c,d\n,,,,,,\n\nx,y".toList = some (.ok rs) ∧
        loadImageCSV 64 "a\nb,c,d\n,,,,,,\n\nx,y".toList =
          some ⟨(rs.filter (fun rec => decide (isFull rec))).map imageOf,
            (rs.filter (fun rec => decide (isPartial rec))).map (partialOf 64),
            rs.filterMap (warningOf 64), none⟩ :=
  ⟨by decide, (C10_no_quote_no_error 64 (Or.inr rfl) "a\nb,c,d\n,,,,,,\n\nx,y".toList (by
    decide)).1⟩

/-- C11 (as stated, refuted): where `uint` is 32 bits wide, `parseUintN` succeeds on the
single argument `4294967296` (a valid digit string, of value `4294967296`) and returns
`0`, which is not the numeric value of the argument: `uint(n)` truncated it. -/
theorem C11_truncation_counterexample :
    validCoordinate "4294967296".toList ∧ decimalValue "4294967296".toList = 4294967296 ∧
      parseUintN 32 ["4294967296".toList] = .ok [0] :=
  ⟨by decide, by decide, by rfl⟩

/-- C11 (amended): on either width of `uint` (32 or 64 bits), `parseUintN` succeeds
exactly when every argument is a non-empty string of ASCII decimal digits whose value is
at most `2 ^ 64 - 1`; on success it returns as many values as arguments, the i-th being
the numeric value of the i-th argument whenever that value is in the range of `uint`
(below `2 ^ bits`), which is every value where `uint` is 64 bits wide.  A sign, a decimal
point, a blank, an underscore, the empty string and a value of `2 ^ 64` are refused;
leading zeros are accepted. -/
theorem C11_parseUintN_succeeds_iff_all_valid (bits : Nat) (hbits : bits = 32 ∨ bits = 64)
    (args : List GoString) :
    ((∃ rs, parseUintN bits args = .ok rs) ↔ ∀ a ∈ args, validCoordinate a) ∧
      (∀ rs, parseUintN bits args = .ok rs →
        rs.length = args.length ∧
        (∀ (i : Nat) (a : GoString), args[i]? = some a → decimalValue a < 2 ^ bits →
          rs[i]? = some (decimalValue a)) ∧
        (bits = 64 → rs = args.map decimalValue)) ∧
      (∀ a, validCoordinate a ↔
        a ≠ [] ∧ (∀ c ∈ a, isDigit c) ∧ decimalValue a ≤ 2 ^ 64 - 1) ∧
      (∀ s ∈ ["+1".toList, "-1".toList, "1.5".toList, " 1".toList, "1 ".toList,
          "1_0".toList, [], "18446744073709551616".toList],
        ∃ e, parseUintN bits [s] = .error e) ∧
      parseUintN bits ["007".toList, "4294967295".toList, "0".toList] =
        .ok [7, 4294967295, 0] ∧
      parseUintN 64 ["18446744073709551615".toList] = .ok [18446744073709551615] := by
  refine ⟨⟨?_, ?_⟩, ?_, ?_, ?_, by rcases hbits with rfl | rfl <;> rfl, by rfl⟩
  · rintro ⟨rs, h⟩
    exact (parseUintNLoop_ok_inv args [] rs h).1
  · intro h
    exact ⟨_, parseUintNLoop_valid args [] h⟩
  · intro rs h
    have hv := (parseUintNLoop_ok_inv args [] rs h).1
    have := (parseUintNLoop_ok_inv args [] rs h).2
    simp only [List.nil_append] at this
    refine ⟨by rw [this, List.length_map], ?_, ?_⟩
    · intro i a hi hr
      rw [this, List.getElem?_map, hi, Option.map_some', toUint_of_lt hr]
    · intro h64
      subst h64
      rw [this]
      apply List.map_congr_left
      intro a ha
      exact toUint_decimalValue (hv a ha)
  · intro a
    unfold validCoordinate
    constructor
    · rintro ⟨h1, h2, h3⟩
      exact ⟨h1, h2, by omega⟩
    · rintro ⟨h1, h2, h3⟩
      exact ⟨h1, h2, by omega⟩
  · intro s hs
    apply parseUintNLoop_invalid
    refine ⟨s, List.mem_singleton_self s, ?_⟩
    simp only [List.mem_cons, List.mem_singleton, List.not_mem_nil, or_false] at hs
    rcases hs with rfl | rfl | rfl | rfl | rfl | rfl | rfl | rfl <;> decide

theorem C11_parseUintN_succeeds_iff_all_valid_witness :
    parseUintN 32 ["1".toList, "4294967295".toList, "3".toList, "4".toList] =
        .ok [1, 4294967295, 3, 4] ∧
      [1, 4294967295, 3, 4].length =
        ["1".toList, "4294967295".toList, "3".toList, "4".toList].length ∧
      ["1".toList, "4294967295".toList, "3".toList, "4".toList][1]? =
        some "4294967295".toList ∧
      decimalValue "4294967295".toList < 2 ^ 32 ∧
      [1, 4294967295, 3, 4][1]? = some (decimalValue "4294967295".toList) :=
  ⟨by rfl, by rfl, by rfl, by decide,
    ((C11_parseUintN_succeeds_iff_all_valid 32 (Or.inl rfl)
      ["1".toList, "4294967295".toList, "3".toList, "4".toList]).2.1 [1, 4294967295, 3, 4]
      (by rfl)).2.1 1 "4294967295".toList (by rfl) (by decide)⟩

/-- C12: for every name and path without a carriage return (commas, newlines, double
quotes, a leading `;` and the empty text are all allowed), the line made of the two
texts, each enclosed in double quotes with its inner double quotes doubled, joined by a
comma and ended by a newline, is loaded as the single image `Image{name, path}`, with no
partial image, no warning and no error.  For the name `a"b` and the path `;c` that line
is `"a""b",";c"` and a newline. -/
theorem C12_quoted_fields_read_back (bits : Nat) (name path : GoString) (hn : '\r' ∉ name)
    (hp : '\r' ∉ path) :
    loadImageCSV bits (quotedImageLine name path) = some ⟨[⟨name, path⟩], [], [], none⟩ ∧
      quotedImageLine "a\"b".toList ";c".toList = "\"a\"\"b\",\";c\"\n".toList :=
  ⟨loadImageCSV_quotedImageLine name path hn hp, by decide⟩

theorem C12_quoted_fields_read_back_witness :
    '\r' ∉ ";a,\n\n;b\"\"".toList ∧ '\r' ∉ ([] : GoString) ∧
      loadImageCSV 64 (quotedImageLine ";a,\n\n;b\"\"".toList []) =
        some ⟨[⟨";a,\n\n;b\"\"".toList, []⟩], [], [], none⟩ :=
  ⟨by decide, by decide,
    (C12_quoted_fields_read_back 64 ";a,\n\n;b\"\"".toList [] (by decide) (by decide)).1⟩

/-- C13 (as stated, refuted): a line of one comma, `;` and text is not skipped; it is the
2-field record `["", ";just a comment"]` and becomes an image.  With two leading commas
the line is a 3-field record and becomes a warning.  A line that starts with `;` inside a
quoted field is not skipped either: it is part of the field. -/
theorem C13_leading_comma_counterexample :
    loadImageCSV 64 ",;just a comment\n".toList =
        some ⟨[⟨[], ";just a comment".toList⟩], [], [], none⟩ ∧
      loadImageCSV 64 ",,;just a comment\n".toList =
        some ⟨[], [],
          [Warning.plain (fieldCountMessage [[], [], ";just a comment".toList])], none⟩ ∧
      loadImageCSV 64 "\"x\n;y\",p\n".toList =
        some ⟨[⟨"x\n;y".toList, "p".toList⟩], [], [], none⟩ := by
  decide

/-- C13 (amended): a line whose first character is `;`, outside a quoted field, is a
comment.  Whenever `Read` is called with the stream at such a line, it answers as if
called after the line.  Hence, after any text `pre` of complete lines that parses without
fatal error (so the line starts at a record boundary), the line is skipped entirely: the
record stream and the images, partial images, warnings and error of `loadImageCSV` are
those of the input without the line; the line alone, with or without its newline, yields
no image, no partial image and no warning. -/
theorem C13_first_character_comment (bits : Nat) (pre c post : GoString)
    (hc : endsLines pre) (hp : parsesCleanly bits pre) (hnl : '\n' ∉ c) :
    Read ((';' :: c ++ ['\n']) ++ post) = Read post ∧
      records (pre ++ (';' :: c ++ ['\n']) ++ post) = records (pre ++ post) ∧
      loadImageCSV bits (pre ++ (';' :: c ++ ['\n']) ++ post) =
        loadImageCSV bits (pre ++ post) ∧
      loadImageCSV bits (';' :: c ++ ['\n']) = some ⟨[], [], [], none⟩ ∧
      loadImageCSV bits (';' :: c) = some ⟨[], [], [], none⟩ := by
  have hR := Read_comment_line c post hnl
  have h2 := records_congr _ _ (Read_comment_line c [] hnl)
  have h3 := records_congr _ _ (Read_comment_eof c hnl)
  obtain ⟨rs, hrs⟩ := (@parsesCleanly_iff bits pre).1 hp
  refine ⟨hR, ?_, loadImageCSV_skip pre _ post hc hp hR, ?_, ?_⟩
  · rw [List.append_assoc, records_append pre _ rs hc hrs, records_append pre post rs hc hrs,
      records_congr _ _ hR]
  · rw [List.append_nil] at h2
    rw [loadImageCSV_congr _ _ h2]
    rfl
  · rw [loadImageCSV_congr _ _ h3]
    rfl

theorem C13_first_character_comment_witness :
    endsLines "a,b\n".toList ∧ parsesCleanly 64 "a,b\n".toList ∧
      '\n' ∉ "just, a \"comment".toList ∧
      loadImageCSV 64 ("a,b\n".toList ++ (';' :: "just, a \"comment".toList ++ ['\n']) ++
          "ok,ok.webp\n".toList) =
        loadImageCSV 64 ("a,b\n".toList ++ "ok,ok.webp\n".toList) :=
  ⟨by decide, by decide, by decide,
    (C13_first_character_comment 64 "a,b\n".toList "just, a \"comment".toList
      "ok,ok.webp\n".toList (by decide) (by decide) (by decide)).2.2.1⟩

/-- C14 (as stated, refuted): two manifests whose records differ in name and path but
have the same unparsable coordinate get the very same warning, the wrapped
`NumError{ParseUint, "x", ErrSyntax}`: the warning holds neither the name of its record
nor a path of the manifest. -/
theorem C14_warning_without_identifier_counterexample :
    loadImageCSV 64 "alice,alice.webp,x,2,3,4\n".toList =
        some ⟨[], [], [Warning.wrapped ⟨"ParseUint".toList, "x".toList, .ErrSyntax⟩],
          none⟩ ∧
      loadImageCSV 64 "bob,bob.webp,x,2,3,4\n".toList =
        some ⟨[], [], [Warning.wrapped ⟨"ParseUint".toList, "x".toList, .ErrSyntax⟩],
          none⟩ := by
  decide

/-- C14 (amended): every warning `loadImageCSV` returns carries the offending raw data
of a record of the stream.  It is either the wrapped error of `ParseUint` for a 6-field
record, whose `Num` is the text of one of the four coordinate fields of that record and
is not a valid coordinate, or the field-count warning of a record with neither 2 nor 6
fields, whose message contains the text of every field of that record. -/
theorem C14_warnings_carry_raw_data (bits : Nat) (r : GoString) (res : Result) (w : Warning)
    (h : loadImageCSV bits r = some res) (hw : w ∈ res.warnings) :
    ∃ rs rec, records r = some (.ok rs) ∧ rec ∈ rs ∧
      ((rec.length = 6 ∧ ∃ e, w = .wrapped e ∧ e.Func = "ParseUint".toList ∧
          e.Num ∈ rec.drop 2 ∧ ¬ validCoordinate e.Num) ∨
        (rec.length ≠ 2 ∧ rec.length ≠ 6 ∧ w = .plain (fieldCountMessage rec) ∧
          ∀ f ∈ rec, f <:+: fieldCountMessage rec)) := by
  rw [loadImageCSV_eq] at h
  obtain ⟨x, hx⟩ := records_isSome r
  rw [hx] at h
  simp only [Option.map_some', Option.some.injEq] at h
  subst h
  cases x with
  | error e => simp [resultOf] at hw
  | ok rs =>
    simp only [resultOf, List.nil_append, List.mem_filterMap] at hw
    obtain ⟨rec, hrec, hwo⟩ := hw
    exact ⟨rs, rec, hx, hrec, warningOf_some rec w hwo⟩

theorem C14_warnings_carry_raw_data_witness :
    loadImageCSV 64 "alice,alice.webp,1,y,3,4\n".toList =
        some ⟨[], [], [Warning.wrapped ⟨"ParseUint".toList, "y".toList, .ErrSyntax⟩],
          none⟩ ∧
      Warning.wrapped ⟨"ParseUint".toList, "y".toList, .ErrSyntax⟩ ∈
        (⟨[], [], [Warning.wrapped ⟨"ParseUint".toList, "y".toList, .ErrSyntax⟩],
          none⟩ : Result).warnings ∧
      ∃ rs rec, records "alice,alice.webp,1,y,3,4\n".toList = some (.ok rs) ∧ rec ∈ rs :=
  ⟨by decide, by decide,
    (C14_warnings_carry_raw_data 64 "alice,alice.webp,1,y,3,4\n".toList
      ⟨[], [], [Warning.wrapped ⟨"ParseUint".toList, "y".toList, .ErrSyntax⟩], none⟩
      (Warning.wrapped ⟨"ParseUint".toList, "y".toList, .ErrSyntax⟩) (by decide)
      (by decide)).imp (fun _ h => h.imp (fun _ h => ⟨h.1, h.2.1⟩))⟩

/-- C15: whenever `loadImageCSV` returns a fatal error, `images`, `partialImages` and
`warnings` are all empty, whatever the loop had accumulated: the loop returns nil slices
as soon as `Read` fails.  `"ok,ok.webp\n"`, a record of three fields, and then a line with
an unterminated quote give no image and no warning. -/
theorem C15_fatal_error_discards_outputs (bits : Nat) (hbits : bits = 32 ∨ bits = 64)
    (r : GoString) (res : Result)
    (h : loadImageCSV bits r = some res) (he : res.err ≠ none) :
    res.images = [] ∧ res.partialImages = [] ∧ res.warnings = [] ∧
      (∀ (fuel : Nat) (input : GoString) (acc : Acc) (e : ParseError),
        Read input = some (.error e) →
        loadLoop bits (fuel + 1) input acc = some ⟨[], [], [], some e⟩) ∧
      loadImageCSV bits "ok,ok.webp\nx,y,z\nunterminated,\"quote\n".toList =
        some ⟨[], [], [], some .ErrQuote⟩ := by
  refine ⟨?_, ?_, ?_, fun fuel input acc e hR => loadLoop_error fuel input acc e hR,
    by rcases hbits with rfl | rfl <;> decide⟩ <;>
  · rw [loadImageCSV_eq] at h
    obtain ⟨x, hx⟩ := records_isSome r
    rw [hx] at h
    simp only [Option.map_some', Option.some.injEq] at h
    subst h
    cases x with
    | error e => rfl
    | ok rs => simp [resultOf] at he

theorem C15_fatal_error_discards_outputs_witness :
    loadImageCSV 64 "ok,ok.webp\nx,y,z\na\"b\n".toList = some ⟨[], [], [], some .ErrBareQuote⟩ ∧
      (⟨[], [], [], some .ErrBareQuote⟩ : Result).err ≠ none ∧
      (⟨[], [], [], some .ErrBareQuote⟩ : Result).images = [] :=
  ⟨by decide, by decide,
    (C15_fatal_error_discards_outputs 64 (Or.inr rfl) "ok,ok.webp\nx,y,z\na\"b\n".toList
      ⟨[], [], [], some .ErrBareQuote⟩ (by decide) (by decide)).1⟩

/-- C16: when `loadImageCSV` returns without a fatal error, every record the reader
delivered lands in exactly one output: each record is a full-image record, or a
partial-image record, or gets a warning, and never two of these, and
`len(images) + len(partialImages) + len(warnings)` is the number of records read. -/
theorem C16_every_record_in_one_output (bits : Nat) (r : GoString) (res : Result)
    (h : loadImageCSV bits r = some res) (herr : res.err = none) :
    (∃ rs, records r = some (.ok rs) ∧
        res.images.length + res.partialImages.length + res.warnings.length = rs.length) ∧
      ∀ rec : List GoString,
        (isFull rec ∧ ¬ isPartial rec ∧ warningOf bits rec = none) ∨
          (¬ isFull rec ∧ isPartial rec ∧ warningOf bits rec = none) ∨
          (¬ isFull rec ∧ ¬ isPartial rec ∧ (warningOf bits rec).isSome = true) := by
  refine ⟨?_, @record_trichotomy bits⟩
  rw [loadImageCSV_eq] at h
  obtain ⟨x, hx⟩ := records_isSome r
  rw [hx] at h
  simp only [Option.map_some', Option.some.injEq] at h
  subst h
  cases x with
  | error e => simp [resultOf] at herr
  | ok rs =>
    refine ⟨rs, hx, ?_⟩
    simp only [resultOf, List.nil_append, List.length_map]
    exact outputs_count rs

theorem C16_every_record_in_one_output_witness :
    loadImageCSV 64 "a,a.webp\n;c\n\np,p.webp,1,2,3,4\nbad\nq,q.webp,1,2,3,x\n".toList =
        some ⟨[⟨"a".toList, "a.webp".toList⟩],
          [{ Name := "p".toList, Path := "p.webp".toList, ax := 1, ay := 2, bx := 3,
             by_ := 4 }],
          [Warning.plain (fieldCountMessage ["bad".toList]),
           Warning.wrapped ⟨"ParseUint".toList, "x".toList, .ErrSyntax⟩], none⟩ ∧
      ∃ rs,
        records "a,a.webp\n;c\n\np,p.webp,1,2,3,4\nbad\nq,q.webp,1,2,3,x\n".toList =
          some (.ok rs) ∧
        [(⟨"a".toList, "a.webp".toList⟩ : Image)].length +
            [({ Name := "p".toList, Path := "p.webp".toList, ax := 1, ay := 2, bx := 3,
                by_ := 4 } : PartialImage)].length +
            [Warning.plain (fieldCountMessage ["bad".toList]),
             Warning.wrapped ⟨"ParseUint".toList, "x".toList, .ErrSyntax⟩].length =
          rs.length :=
  ⟨by decide,
    (C16_every_record_in_one_output 64
      "a,a.webp\n;c\n\np,p.webp,1,2,3,4\nbad\nq,q.webp,1,2,3,x\n".toList
      ⟨[⟨"a".toList, "a.webp".toList⟩],
        [{ Name := "p".toList, Path := "p.webp".toList, ax := 1, ay := 2, bx := 3,
           by_ := 4 }],
        [Warning.plain (fieldCountMessage ["bad".toList]),
         Warning.wrapped ⟨"ParseUint".toList, "x".toList, .ErrSyntax⟩], none⟩
      (by decide) rfl).1⟩

/-- C17: when the first invalid argument of `parseUintN` is `a` (the arguments `pre`
before it are valid), `parseUintN` fails with the error of `ParseUint a`, whose `Num` is
the text of `a`, whatever arguments `post` follow: they are not examined.  For a 6-field
record the single warning `loadImageCSV` appends wraps that error;
`"bad,bad.webp,x,y,3,4\n"` gives one warning, about `x`. -/
theorem C17_leftmost_invalid_reported (bits : Nat) (hbits : bits = 32 ∨ bits = 64)
    (pre post : List GoString) (a : GoString)
    (hpre : ∀ x ∈ pre, validCoordinate x) (ha : ¬ validCoordinate a) :
    (∃ e, ParseUint a = .error e ∧ e.Num = a ∧
        parseUintN bits (pre ++ a :: post) = .error e ∧
        (∀ post', parseUintN bits (pre ++ a :: post') = .error e) ∧
        ∀ (acc : Acc) (name path : GoString), (pre ++ a :: post).length = 4 →
          processRecord bits acc (name :: path :: (pre ++ a :: post)) =
            ⟨acc.images, acc.partialImages, acc.warnings ++ [Warning.wrapped e]⟩) ∧
      loadImageCSV bits "bad,bad.webp,x,y,3,4\n".toList =
        some ⟨[], [], [Warning.wrapped ⟨"ParseUint".toList, "x".toList, .ErrSyntax⟩],
          none⟩ := by
  refine ⟨?_, by rcases hbits with rfl | rfl <;> decide⟩
  obtain ⟨e, he⟩ := ParseUint_of_invalid ha
  have hall : ∀ post', parseUintN bits (pre ++ a :: post') = .error e := fun post' =>
    parseUintNLoop_leftmost pre post' a [] e hpre he
  exact ⟨e, he, (ParseUint_error a e he).2.1, hall post, hall,
    fun acc name path hlen =>
      processRecord_coordinate_error acc name path _ e hlen (hall post)⟩

theorem C17_leftmost_invalid_reported_witness :
    (∀ x ∈ ["1".toList], validCoordinate x) ∧ ¬ validCoordinate "x".toList ∧
      ∃ e, ParseUint "x".toList = .error e ∧ e.Num = "x".toList ∧
        parseUintN 64 (["1".toList] ++ "x".toList :: ["y".toList, "4".toList]) = .error e :=
  ⟨by decide, by decide,
    (C17_leftmost_invalid_reported 64 (Or.inr rfl) ["1".toList] ["y".toList, "4".toList] "x".toList
      (by decide) (by decide)).1.imp (fun _ h => ⟨h.1, h.2.1, h.2.2.1⟩)⟩

end ImageCSV
